import Mathlib

/-!
Verification of the force-directed layout core in `src/graph.rs`
(`lod-cloud-draw`): the `Model` parameters, the `Graph` with its
`cost`/`gradient` evaluation, the spatial `Blocking` grid, and the
graph builder.

`f64` values are modelled by the type `F`: exact real numbers for the
finite values (rounding and overflow of finite intermediate results are
idealised away) together with the IEEE special values `inf`, `ninf` and
`nan`, whose propagation through `+`, `-`, `*`, `/`, `sqrt`, `exp`,
`ln`, `powf`, `cos`, `sin`, comparisons and the saturating
float-to-`usize` cast follows the IEEE-754 rules that Rust's `f64`
implements.  The sign of zero is not tracked (a division by zero takes
the sign of the dividend, as for `+0.0`).
-/

namespace Lod

/-- Model of an `f64` value: a finite (exact) real, `+∞`, `-∞` or NaN. -/
inductive F where
  | fin : ℝ → F
  | inf : F
  | ninf : F
  | nan : F

namespace F

/-- `f64::is_finite`. -/
def isFinite : F → Bool
  | fin _ => true
  | _ => false

/-- IEEE negation. -/
noncomputable def neg : F → F
  | fin a => fin (-a)
  | inf => ninf
  | ninf => inf
  | nan => nan

/-- IEEE addition (`∞ + -∞ = NaN`). -/
noncomputable def add : F → F → F
  | fin a, fin b => fin (a + b)
  | fin _, inf => inf
  | fin _, ninf => ninf
  | fin _, nan => nan
  | inf, fin _ => inf
  | inf, inf => inf
  | inf, ninf => nan
  | inf, nan => nan
  | ninf, fin _ => ninf
  | ninf, inf => nan
  | ninf, ninf => ninf
  | ninf, nan => nan
  | nan, _ => nan

/-- IEEE subtraction, as `x + (-y)`. -/
noncomputable def sub (x y : F) : F := x.add y.neg

/-- IEEE multiplication (`0 * ±∞ = NaN`). -/
noncomputable def mul : F → F → F
  | fin a, fin b => fin (a * b)
  | fin a, inf => if 0 < a then inf else if a < 0 then ninf else nan
  | fin a, ninf => if 0 < a then ninf else if a < 0 then inf else nan
  | fin _, nan => nan
  | inf, fin b => if 0 < b then inf else if b < 0 then ninf else nan
  | inf, inf => inf
  | inf, ninf => ninf
  | inf, nan => nan
  | ninf, fin b => if 0 < b then ninf else if b < 0 then inf else nan
  | ninf, inf => ninf
  | ninf, ninf => inf
  | ninf, nan => nan
  | nan, _ => nan

/-- IEEE division with an unsigned zero: a finite value divided by zero
takes the sign of the dividend (`0/0 = NaN`). -/
noncomputable def div : F → F → F
  | fin a, fin b =>
      if b = 0 then (if 0 < a then inf else if a < 0 then ninf else nan)
      else fin (a / b)
  | fin _, inf => fin 0
  | fin _, ninf => fin 0
  | fin _, nan => nan
  | inf, fin b => if b < 0 then ninf else inf
  | inf, inf => nan
  | inf, ninf => nan
  | inf, nan => nan
  | ninf, fin b => if b < 0 then inf else ninf
  | ninf, inf => nan
  | ninf, ninf => nan
  | ninf, nan => nan
  | nan, _ => nan

/-- `f64::sqrt` (`sqrt` of a negative value is NaN). -/
noncomputable def sqrt : F → F
  | fin a => if a < 0 then nan else fin (Real.sqrt a)
  | inf => inf
  | ninf => nan
  | nan => nan

/-- `f64::exp`. -/
noncomputable def exp : F → F
  | fin a => fin (Real.exp a)
  | inf => inf
  | ninf => fin 0
  | nan => nan

/-- `f64::ln` (`ln 0 = -∞`, `ln` of a negative value is NaN). -/
noncomputable def ln : F → F
  | fin a => if a < 0 then nan else if a = 0 then ninf else fin (Real.log a)
  | inf => inf
  | ninf => nan
  | nan => nan

/-- `f64::cos` of a finite value; NaN on the special values. -/
noncomputable def cosf : F → F
  | fin a => fin (Real.cos a)
  | _ => nan

/-- `f64::sin` of a finite value; NaN on the special values. -/
noncomputable def sinf : F → F
  | fin a => fin (Real.sin a)
  | _ => nan

/-- `f64::abs`. -/
noncomputable def absf : F → F
  | fin a => fin |a|
  | inf => inf
  | ninf => inf
  | nan => nan

/-- The exponent `r` is an odd integer (used by IEEE `pow` on negative
bases). -/
def isOddInt (r : ℝ) : Prop := ∃ n : ℤ, (2 * n + 1 : ℝ) = r

/-- The exponent `r` is an even integer. -/
def isEvenInt (r : ℝ) : Prop := ∃ n : ℤ, (2 * n : ℝ) = r

open Classical in
/-- IEEE `pow` on a pair of finite values (the `f64::powf` core case):
`x^0 = 1` and `1^y = 1` always, a zero base gives `0` or `+∞` by the
exponent's sign, a negative base needs an integer exponent (NaN
otherwise) and takes its sign from the exponent's parity. -/
noncomputable def powfin (a b : ℝ) : F :=
  if b = 0 then fin 1
  else if a = 1 then fin 1
  else if 0 < a then fin (a ^ b)
  else if a = 0 then (if 0 < b then fin 0 else inf)
  else -- a < 0
    if isOddInt b then fin (-(|a| ^ b))
    else if isEvenInt b then fin (|a| ^ b)
    else nan

open Classical in
/-- `f64::powf`, IEEE `pow`: all special-value cases (`x^0 = 1` and
`1^y = 1` hold even for NaN arguments). -/
noncomputable def powf : F → F → F
  | fin a, fin b => powfin a b
  | fin a, inf =>
      if a = 1 ∨ a = -1 then fin 1 else if |a| < 1 then fin 0 else inf
  | fin a, ninf =>
      if a = 1 ∨ a = -1 then fin 1 else if |a| < 1 then inf else fin 0
  | fin a, nan => if a = 1 then fin 1 else nan
  | inf, fin b => if b = 0 then fin 1 else if 0 < b then inf else fin 0
  | inf, inf => inf
  | inf, ninf => fin 0
  | inf, nan => nan
  | ninf, fin b =>
      if b = 0 then fin 1
      else if 0 < b then (if isOddInt b then ninf else inf)
      else fin 0
  | ninf, inf => inf
  | ninf, ninf => fin 0
  | ninf, nan => nan
  | nan, fin b => if b = 0 then fin 1 else nan
  | nan, _ => nan

/-- IEEE `>` as a Bool: any comparison with NaN is false. -/
noncomputable def gtb : F → F → Bool
  | fin a, fin b => decide (b < a)
  | fin _, inf => false
  | fin _, ninf => true
  | inf, fin _ => true
  | inf, ninf => true
  | ninf, _ => false
  | inf, inf => false
  | _, nan => false
  | nan, _ => false

/-- Rust's saturating `as usize` cast applied after `f64::floor`:
negative values clamp to `0`, `+∞` to `usize::MAX`, NaN to `0`. -/
noncomputable def f2usize : F → ℕ
  | fin a => min (Nat.floor a) (2 ^ 64 - 1)
  | inf => 2 ^ 64 - 1
  | _ => 0

@[simp] theorem isFinite_fin (a : ℝ) : (fin a).isFinite = true := rfl

@[simp] theorem isFinite_inf : (inf).isFinite = false := rfl

@[simp] theorem isFinite_ninf : (ninf).isFinite = false := rfl

@[simp] theorem isFinite_nan : (nan).isFinite = false := rfl

@[simp] theorem neg_fin (a : ℝ) : (fin a).neg = fin (-a) := rfl

@[simp] theorem add_fin_fin (a b : ℝ) : (fin a).add (fin b) = fin (a + b) := rfl

@[simp] theorem sub_fin_fin (a b : ℝ) : (fin a).sub (fin b) = fin (a - b) := by
  simp [sub, neg, add, sub_eq_add_neg]

@[simp] theorem mul_fin_fin (a b : ℝ) : (fin a).mul (fin b) = fin (a * b) := rfl

@[simp] theorem add_nan (x : F) : x.add nan = nan := by cases x <;> rfl

@[simp] theorem nan_add (x : F) : nan.add x = nan := rfl

theorem div_fin_fin (a b : ℝ) (hb : b ≠ 0) : (fin a).div (fin b) = fin (a / b) := by
  simp [div, hb]

theorem sqrt_fin (a : ℝ) (ha : 0 ≤ a) : (fin a).sqrt = fin (Real.sqrt a) := by
  simp [sqrt, not_lt.mpr ha]

@[simp] theorem exp_fin (a : ℝ) : (fin a).exp = fin (Real.exp a) := rfl

theorem ln_fin (a : ℝ) (ha : 0 < a) : (fin a).ln = fin (Real.log a) := by
  simp [ln, not_lt.mpr ha.le, ha.ne.symm]

@[simp] theorem cosf_fin (a : ℝ) : (fin a).cosf = fin (Real.cos a) := rfl

@[simp] theorem sinf_fin (a : ℝ) : (fin a).sinf = fin (Real.sin a) := rfl

@[simp] theorem gtb_fin_fin (a b : ℝ) : (fin a).gtb (fin b) = decide (b < a) := rfl

@[simp] theorem add_fin_zero (x : F) : x.add (fin 0) = x := by
  cases x <;> simp [add]

@[simp] theorem fin_zero_add (x : F) : (fin 0).add x = x := by
  cases x <;> simp [add]

theorem add_comm' (x y : F) : x.add y = y.add x := by
  cases x <;> cases y <;> simp [add] <;> ring

theorem add_assoc' (x y z : F) : (x.add y).add z = x.add (y.add z) := by
  cases x <;> cases y <;> cases z <;> simp [add] <;> ring

theorem add_right_comm' (x y z : F) : (x.add y).add z = (x.add z).add y := by
  rw [add_assoc', add_assoc', add_comm' y z]

theorem neg_add' (x y : F) : (x.add y).neg = x.neg.add y.neg := by
  cases x <;> cases y <;> simp [add, neg] <;> ring

/-- The sum of two values is finite only if both are. -/
theorem isFinite_add {x y : F} (h : (x.add y).isFinite = true) :
    x.isFinite = true ∧ y.isFinite = true := by
  cases x <;> cases y <;> simp_all [add, isFinite]

/-- Adding anything to a non-finite value stays non-finite. -/
theorem add_nonfinite_left {x : F} (y : F) (h : x.isFinite = false) :
    ((x.add y).isFinite) = false := by
  cases x <;> cases y <;> simp_all [add, isFinite]

/-- Adding a non-finite value to anything stays non-finite. -/
theorem add_nonfinite_right (x : F) {y : F} (h : y.isFinite = false) :
    ((x.add y).isFinite) = false := by
  cases x <;> cases y <;> simp_all [add, isFinite]

theorem isFinite_if3 {p q : Prop} [Decidable p] [Decidable q] (u v w : F)
    (hu : u.isFinite = false) (hv : v.isFinite = false) (hw : w.isFinite = false) :
    (if p then u else if q then v else w).isFinite = false := by
  split
  · exact hu
  · split
    · exact hv
    · exact hw

/-- A product with a non-finite factor is non-finite. -/
theorem mul_nonfinite_right (x : F) {y : F} (h : y.isFinite = false) :
    ((x.mul y).isFinite) = false := by
  cases x <;> cases y <;>
    first
      | rfl
      | exact Bool.noConfusion h
      | exact isFinite_if3 _ _ _ rfl rfl rfl

/-- The square of a non-finite value is non-finite. -/
theorem mul_self_nonfinite {x : F} (h : x.isFinite = false) :
    ((x.mul x).isFinite) = false := by
  cases x <;> simp_all [mul, isFinite]

/-- The square root of a non-finite value is non-finite. -/
theorem sqrt_nonfinite {x : F} (h : x.isFinite = false) :
    (x.sqrt.isFinite) = false := by
  cases x <;> simp_all [sqrt, isFinite]

end F

/-- The parameters of the model (`struct Model` in `graph.rs`); the
seven force parameters are `f64` (finite values are assumed, as the
spec makes all eight fields the caller's responsibility), `n_blocks`
is a `usize`. -/
structure Model where
  spring : ℝ
  repulse : ℝ
  repulse_dist : ℝ
  repulse_rigidity : ℝ
  canvas : ℝ
  canvas_size : ℝ
  canvas_rigidity : ℝ
  n_blocks : ℕ

/-- An edge between two vertices (`struct Edge`). -/
structure Edge where
  src : ℕ
  trg : ℕ
deriving DecidableEq

/-- A graph of size `n` with a set of edges (`struct Graph`); the
`HashMap<String, usize>` of vertex names is modelled as an association
list with unique keys. -/
structure Graph where
  n : ℕ
  values : List (String × ℕ)
  edges : List Edge

/-- `Graph::new`. -/
def Graph.new : Graph := { n := 0, values := [], edges := [] }

/-- `Graph::add_vertex`: look up the name, or append it with the next
index; returns the updated graph together with the index. -/
def Graph.add_vertex (g : Graph) (name : String) : Graph × ℕ :=
  match g.values.lookup name with
  | none => ({ g with values := g.values ++ [(name, g.n)], n := g.n + 1 }, g.n)
  | some i => (g, i)

/-- Read `loc[i]`; an out-of-range access (a panic in Rust) is NaN. -/
def geti (loc : List F) (i : ℕ) : F := loc.getD i F.nan

/-- `sigma` in `graph.rs`: the logistic function `1/(1+exp(-x))`. -/
noncomputable def sigma (x : F) : F :=
  (F.fin 1).div ((F.fin 1).add x.neg.exp)

/-- `relu` in `graph.rs`: the softplus `ln(1+exp(x))`. -/
noncomputable def relu (x : F) : F :=
  ((F.fin 1).add x.exp).ln

/-- `repulse_cost`: `m.repulse * relu(m.repulse_dist - d)` with
`d = sqrt(x*x + y*y)`. -/
noncomputable def repulse_cost (x y : F) (m : Model) : F :=
  let d := ((x.mul x).add (y.mul y)).sqrt
  (F.fin m.repulse).mul (relu ((F.fin m.repulse_dist).sub d))

/-- `gradient[i] += v` on the gradient vector (out of range is a no-op,
matching the in-bounds hypotheses under which it is used). -/
noncomputable def gupd (gr : List F) (i : ℕ) (v : F) : List F :=
  gr.set i ((gr.getD i F.nan).add v)

/-- `gradient[i] -= v`. -/
noncomputable def gsub (gr : List F) (i : ℕ) (v : F) : List F :=
  gr.set i ((gr.getD i F.nan).sub v)

/-- `repulse_grad`: at positive distance push `v1` away from `v2`;
at distance zero apply the deterministic superposition perturbation
`-repulse * 2 * sigma * cos(v1) * 1e-10` / `-... * sin(v2) * 1e-10`. -/
noncomputable def repulse_grad (gr : List F) (x y : F) (v1 v2 : ℕ) (m : Model) : List F :=
  let d := ((x.mul x).add (y.mul y)).sqrt
  let s := sigma ((F.fin m.repulse_dist).sub d)
  if d.gtb (F.fin 0) then
    gsub (gsub gr (v1 * 2) ((((F.fin m.repulse).mul (F.fin 2)).mul x).mul s |>.div d))
      (v1 * 2 + 1) ((((F.fin m.repulse).mul (F.fin 2)).mul y).mul s |>.div d)
  else
    gsub (gsub gr (v1 * 2)
        ((((F.fin m.repulse).mul (F.fin 2)).mul s).mul ((F.fin (v1 : ℝ)).cosf) |>.mul (F.fin 1e-10)))
      (v1 * 2 + 1)
      ((((F.fin m.repulse).mul (F.fin 2)).mul s).mul ((F.fin (v2 : ℝ)).sinf) |>.mul (F.fin 1e-10))

/-- The spatial blocking grid (`struct Blocking`). -/
structure Blocking where
  blocks : List (List (List (ℕ × F × F)))
  block_size : F
  max : ℝ
  n_blocks : ℕ

/-- Read the bucket `blocks[i][j]` (out of range reads `[]`). -/
def bget (b : List (List (List (ℕ × F × F)))) (i j : ℕ) : List (ℕ × F × F) :=
  (b.getD i []).getD j []

/-- Write the bucket `blocks[i][j]` (out of range is a no-op). -/
def bset (b : List (List (List (ℕ × F × F)))) (i j : ℕ) (v : List (ℕ × F × F)) :
    List (List (List (ℕ × F × F))) :=
  b.set i ((b.getD i []).set j v)

/-- The largest absolute value of a finite entry of `xs` (the `max`
accumulation loop of `Blocking::create` before the `1.01` factor). -/
noncomputable def maxAbsFinite (xs : List F) : ℝ :=
  xs.foldl (fun mx x =>
    match x with
    | F.fin a => if mx < |a| then |a| else mx
    | _ => mx) 0

/-- The cell index `((c + max) / block_size).floor() as usize` used by
`Blocking::create` and `Blocking::nearby`. -/
noncomputable def cellIdx (c : F) (mx : ℝ) (bs : F) : ℕ :=
  F.f2usize ((c.add (F.fin mx)).div bs)

/-- `Blocking::create`: compute `max` (1.01 × the largest finite
absolute coordinate) and `block_size = max * 2 / n_blocks`, then
bucket every position with two finite coordinates. -/
noncomputable def Blocking.create (xs : List F) (n_blocks : ℕ) : Blocking :=
  let mx := maxAbsFinite xs * 1.01
  let bs := (F.fin (mx * 2)).div (F.fin (n_blocks : ℝ))
  let b0 : List (List (List (ℕ × F × F))) :=
    List.replicate n_blocks (List.replicate n_blocks [])
  let blocks := (List.range (xs.length / 2)).foldl (fun b i =>
    if (geti xs (i * 2)).isFinite && (geti xs (i * 2 + 1)).isFinite then
      let cx := cellIdx (geti xs (i * 2)) mx bs
      let cy := cellIdx (geti xs (i * 2 + 1)) mx bs
      bset b cx cy (bget b cx cy ++ [(i, geti xs (i * 2), geti xs (i * 2 + 1))])
    else b) b0
  { blocks := blocks, block_size := bs, max := mx, n_blocks := n_blocks }

/-- `Blocking::nearby`: the querying point's own cell plus up to 8
adjacent cells, in the order the source extends `elems`; empty for a
non-finite query point. -/
noncomputable def Blocking.nearby (bl : Blocking) (x y : F) : List (ℕ × F × F) :=
  if x.isFinite && y.isFinite then
    let x_id := cellIdx x bl.max bl.block_size
    let y_id := cellIdx y bl.max bl.block_size
    bget bl.blocks x_id y_id ++
    (if 0 < x_id then
      (if 0 < y_id then bget bl.blocks (x_id - 1) (y_id - 1) else []) ++
      (if y_id < bl.n_blocks - 1 then bget bl.blocks (x_id - 1) (y_id + 1) else []) ++
      bget bl.blocks (x_id - 1) y_id
     else []) ++
    (if x_id < bl.n_blocks - 1 then
      (if 0 < y_id then bget bl.blocks (x_id + 1) (y_id - 1) else []) ++
      (if y_id < bl.n_blocks - 1 then bget bl.blocks (x_id + 1) (y_id + 1) else []) ++
      bget bl.blocks (x_id + 1) y_id
     else []) ++
    (if 0 < y_id then bget bl.blocks x_id (y_id - 1) else []) ++
    (if y_id < bl.n_blocks - 1 then bget bl.blocks x_id (y_id + 1) else [])
  else []

/-- One iteration of the spring loop of `Graph::cost`: add
`m.spring * sqrt((xs-xt)^2 + (ys-yt)^2)` to the accumulator. -/
noncomputable def springCostStep (loc : List F) (m : Model) (c : F) (e : Edge) : F :=
  let x := (geti loc (e.src * 2)).sub (geti loc (e.trg * 2))
  let y := (geti loc (e.src * 2 + 1)).sub (geti loc (e.trg * 2 + 1))
  c.add ((F.fin m.spring).mul (((x.mul x).add (y.mul y)).sqrt))

/-- The spring pass of `Graph::cost`. -/
noncomputable def springCost (edges : List Edge) (loc : List F) (m : Model) (c : F) : F :=
  edges.foldl (springCostStep loc m) c

/-- One scanned repulsion candidate of `Graph::cost` against vertex
`v1`: the candidate `t` carries `(v2_id, v2_x, v2_y)`; on the naive
path it is `(v2, loc[v2*2], loc[v2*2+1])`. -/
noncomputable def repulseCostPairStep (loc : List F) (m : Model) (v1 : ℕ) (c : F)
    (t : ℕ × F × F) : F :=
  if v1 ≠ t.1 then
    c.add (repulse_cost ((geti loc (v1 * 2)).sub t.2.1)
      ((geti loc (v1 * 2 + 1)).sub t.2.2) m)
  else c

/-- The naive all-pairs repulsion pass of `Graph::cost`
(`n_blocks <= 1`): every ordered pair of distinct vertices, reading
`v2`'s coordinates from `loc`. -/
noncomputable def repulseCostNaive (n : ℕ) (loc : List F) (m : Model) (c : F) : F :=
  (List.range n).foldl (fun c v1 =>
    (List.range n).foldl (fun c v2 =>
      repulseCostPairStep loc m v1 c (v2, geti loc (v2 * 2), geti loc (v2 * 2 + 1))) c) c

/-- The blocked repulsion pass of `Graph::cost` (`n_blocks > 1`). -/
noncomputable def repulseCostBlocked (n : ℕ) (loc : List F) (m : Model) (c : F) : F :=
  let blocking := Blocking.create loc m.n_blocks
  (List.range n).foldl (fun c v1 =>
    (blocking.nearby (geti loc (v1 * 2)) (geti loc (v1 * 2 + 1))).foldl
      (repulseCostPairStep loc m v1) c) c

/-- One iteration of the centre-attraction loop of `Graph::cost`: add
`m.canvas * (d / m.canvas_size).powf(m.canvas_rigidity)`. -/
noncomputable def canvasCostStep (loc : List F) (m : Model) (c : F) (v1 : ℕ) : F :=
  let d := (((geti loc (v1 * 2)).mul (geti loc (v1 * 2))).add
    ((geti loc (v1 * 2 + 1)).mul (geti loc (v1 * 2 + 1)))).sqrt
  c.add ((F.fin m.canvas).mul ((d.div (F.fin m.canvas_size)).powf
    (F.fin m.canvas_rigidity)))

/-- The centre-attraction pass of `Graph::cost`. -/
noncomputable def canvasCost (n : ℕ) (loc : List F) (m : Model) (c : F) : F :=
  (List.range n).foldl (canvasCostStep loc m) c

/-- `Graph::cost`: spring pass, then the repulsion pass (blocked when
`n_blocks > 1`, naive otherwise), then the canvas pass. -/
noncomputable def Graph.cost (g : Graph) (loc : List F) (m : Model) : F :=
  let c1 := springCost g.edges loc m (F.fin 0)
  let c2 := if 1 < m.n_blocks then repulseCostBlocked g.n loc m c1
            else repulseCostNaive g.n loc m c1
  canvasCost g.n loc m c2

/-- One iteration of the spring loop of `Graph::gradient`: guarded by
`d > 0.0`. -/
noncomputable def springGradStep (loc : List F) (m : Model) (gr : List F) (e : Edge) :
    List F :=
  let x := (geti loc (e.src * 2)).sub (geti loc (e.trg * 2))
  let y := (geti loc (e.src * 2 + 1)).sub (geti loc (e.trg * 2 + 1))
  let d := ((x.mul x).add (y.mul y)).sqrt
  if d.gtb (F.fin 0) then
    gsub (gsub (gupd (gupd gr (e.src * 2) (((F.fin m.spring).mul x).div d))
      (e.src * 2 + 1) (((F.fin m.spring).mul y).div d))
      (e.trg * 2) (((F.fin m.spring).mul x).div d))
      (e.trg * 2 + 1) (((F.fin m.spring).mul y).div d)
  else gr

/-- The spring pass of `Graph::gradient`. -/
noncomputable def springGrad (edges : List Edge) (loc : List F) (m : Model)
    (gr : List F) : List F :=
  edges.foldl (springGradStep loc m) gr

/-- One scanned repulsion candidate of `Graph::gradient` against
vertex `v1`; on the naive path the candidate is
`(v2, loc[v2*2], loc[v2*2+1])`. -/
noncomputable def repulseGradPairStep (loc : List F) (m : Model) (v1 : ℕ) (gr : List F)
    (t : ℕ × F × F) : List F :=
  if v1 ≠ t.1 then
    repulse_grad gr ((geti loc (v1 * 2)).sub t.2.1)
      ((geti loc (v1 * 2 + 1)).sub t.2.2) v1 t.1 m
  else gr

/-- The naive all-pairs repulsion pass of `Graph::gradient`. -/
noncomputable def repulseGradNaive (n : ℕ) (loc : List F) (m : Model)
    (gr : List F) : List F :=
  (List.range n).foldl (fun gr v1 =>
    (List.range n).foldl (fun gr v2 =>
      repulseGradPairStep loc m v1 gr (v2, geti loc (v2 * 2), geti loc (v2 * 2 + 1))) gr) gr

/-- The blocked repulsion pass of `Graph::gradient`. -/
noncomputable def repulseGradBlocked (n : ℕ) (loc : List F) (m : Model)
    (gr : List F) : List F :=
  let blocking := Blocking.create loc m.n_blocks
  (List.range n).foldl (fun gr v1 =>
    (blocking.nearby (geti loc (v1 * 2)) (geti loc (v1 * 2 + 1))).foldl
      (repulseGradPairStep loc m v1) gr) gr

/-- One iteration of the centre-attraction loop of `Graph::gradient`:
the unguarded closed-form partials
`m.canvas * m.canvas_size.powf(-r) * r * loc[v] * d.powf(r - 2)`. -/
noncomputable def canvasGradStep (loc : List F) (m : Model) (gr : List F) (v1 : ℕ) :
    List F :=
  let d := (((geti loc (v1 * 2)).mul (geti loc (v1 * 2))).add
    ((geti loc (v1 * 2 + 1)).mul (geti loc (v1 * 2 + 1)))).sqrt
  gupd (gupd gr (v1 * 2)
    ((((F.fin m.canvas).mul ((F.fin m.canvas_size).powf
        (F.fin (-m.canvas_rigidity)))).mul (F.fin m.canvas_rigidity)).mul
      (geti loc (v1 * 2)) |>.mul (d.powf (F.fin (m.canvas_rigidity - 2)))))
    (v1 * 2 + 1)
    ((((F.fin m.canvas).mul ((F.fin m.canvas_size).powf
        (F.fin (-m.canvas_rigidity)))).mul (F.fin m.canvas_rigidity)).mul
      (geti loc (v1 * 2 + 1)) |>.mul (d.powf (F.fin (m.canvas_rigidity - 2))))

/-- The centre-attraction pass of `Graph::gradient`. -/
noncomputable def canvasGrad (n : ℕ) (loc : List F) (m : Model) (gr : List F) : List F :=
  (List.range n).foldl (canvasGradStep loc m) gr

/-- `Graph::gradient`: a vector of `2n` zeros accumulated through the
spring, repulsion (blocked when `n_blocks > 1`) and canvas passes. -/
noncomputable def Graph.gradient (g : Graph) (loc : List F) (m : Model) : List F :=
  let gr0 := List.replicate (g.n * 2) (F.fin 0)
  let gr1 := springGrad g.edges loc m gr0
  let gr2 := if 1 < m.n_blocks then repulseGradBlocked g.n loc m gr1
             else repulseGradNaive g.n loc m gr1
  canvasGrad g.n loc m gr2

/-- A link of a dataset record (`link.target`). -/
structure Link where
  target : String

/-- A dataset record (`dataset.identifier`, `dataset.links`). -/
structure Dataset where
  identifier : String
  links : List Link

/-- The body of `build_graph`'s loop for a single dataset record. -/
def buildStep (g : Graph) (dataset : Dataset) : Graph :=
  if dataset.links.isEmpty then g
  else
    let p := g.add_vertex dataset.identifier
    dataset.links.foldl (fun g link =>
      let q := g.add_vertex link.target
      { q.1 with edges := q.1.edges ++ [Edge.mk p.2 q.2, Edge.mk q.2 p.2] }) p.1

/-- `build_graph`: fold the dataset records (in the iteration order of
the supplied collection) over an empty graph. -/
def build_graph (data : List Dataset) : Graph :=
  data.foldl buildStep Graph.new

/-! ### General helper lemmas -/

theorem F.eq_fin_of_isFinite {x : F} (h : x.isFinite = true) : ∃ a, x = F.fin a := by
  cases x
  · exact ⟨_, rfl⟩
  all_goals exact absurd h (by simp)

theorem foldl_invariant {α β : Type} (P : β → Prop) (step : β → α → β) (l : List α) (b : β)
    (hb : P b) (hstep : ∀ b x, x ∈ l → P b → P (step b x)) : P (l.foldl step b) := by
  induction l generalizing b with
  | nil => exact hb
  | cons hd tl ih =>
      exact ih (step b hd) (hstep b hd (by simp) hb)
        (fun b x hx => hstep b x (by simp [hx]))

/-- A fold whose every step leaves the accumulator unchanged. -/
theorem foldl_preserve {α β : Type} (step : β → α → β) (l : List α) (b : β)
    (h : ∀ c x, x ∈ l → step c x = c) : l.foldl step b = b := by
  induction l generalizing b with
  | nil => rfl
  | cons hd tl ih =>
      rw [List.foldl_cons, h b hd (by simp)]
      exact ih b (fun c x hx => h c x (by simp [hx]))

/-- A fold whose steps preserve non-finiteness of the accumulator. -/
theorem foldl_absorb_nonfinite {α : Type} (step : F → α → F) (l : List α) (c : F)
    (hstep : ∀ c x, x ∈ l → c.isFinite = false → (step c x).isFinite = false)
    (hc : c.isFinite = false) : (l.foldl step c).isFinite = false := by
  induction l generalizing c with
  | nil => exact hc
  | cons hd tl ih =>
      exact ih (step c hd) (fun c x hx => hstep c x (by simp [hx]))
        (hstep c hd (by simp) hc)

/-- A fold hits a non-finite value at some element and stays non-finite. -/
theorem foldl_hit_nonfinite {α : Type} (step : F → α → F) (l : List α) (c : F) (x₀ : α)
    (hmem : x₀ ∈ l) (hhit : ∀ c, (step c x₀).isFinite = false)
    (hstep : ∀ c x, x ∈ l → c.isFinite = false → (step c x).isFinite = false) :
    (l.foldl step c).isFinite = false := by
  induction l generalizing c with
  | nil => simp at hmem
  | cons hd tl ih =>
      rw [List.foldl_cons]
      rcases List.mem_cons.mp hmem with h | h
      · subst h
        exact foldl_absorb_nonfinite step tl (step c x₀)
          (fun c x hx => hstep c x (List.mem_cons_of_mem _ hx)) (hhit c)
      · exact ih (step c hd) h (fun c x hx => hstep c x (List.mem_cons_of_mem _ hx))

/-! ### Evaluation lemmas for the force kernels on finite values -/

theorem sigma_fin (t : ℝ) :
    sigma (F.fin t) = F.fin (1 / (1 + Real.exp (-t))) := by
  rw [sigma]
  simp only [F.neg_fin, F.exp_fin, F.add_fin_fin]
  rw [F.div_fin_fin]
  positivity

theorem relu_fin (t : ℝ) :
    relu (F.fin t) = F.fin (Real.log (1 + Real.exp t)) := by
  rw [relu]
  simp only [F.exp_fin, F.add_fin_fin]
  rw [F.ln_fin]
  positivity

theorem relu_fin_pos (t : ℝ) : 0 < Real.log (1 + Real.exp t) :=
  Real.log_pos (by have := Real.exp_pos t; linarith)

theorem repulse_cost_fin (a b : ℝ) (m : Model) :
    repulse_cost (F.fin a) (F.fin b) m =
      F.fin (m.repulse *
        Real.log (1 + Real.exp (m.repulse_dist - Real.sqrt (a * a + b * b)))) := by
  rw [repulse_cost]
  simp only [F.mul_fin_fin, F.add_fin_fin]
  rw [F.sqrt_fin _ (add_nonneg (mul_self_nonneg a) (mul_self_nonneg b))]
  simp only [F.sub_fin_fin]
  rw [relu_fin]
  simp

/-- With `repulse = 0` a repulsion pair of finite coordinates
contributes exactly zero cost. -/
theorem repulse_cost_zero {x y : F} (m : Model) (hx : x.isFinite = true)
    (hy : y.isFinite = true) (hr : m.repulse = 0) :
    repulse_cost x y m = F.fin 0 := by
  obtain ⟨a, rfl⟩ := F.eq_fin_of_isFinite hx
  obtain ⟨b, rfl⟩ := F.eq_fin_of_isFinite hy
  rw [repulse_cost_fin, hr, zero_mul]

@[simp] theorem F.sub_fin_zero (x : F) : x.sub (F.fin 0) = x := by
  cases x <;> simp [F.sub, F.neg, F.add]

theorem set_getD_self {α : Type} (d : α) :
    ∀ (l : List α) (i : ℕ), l.set i (l.getD i d) = l
  | [], _ => rfl
  | _ :: _, 0 => rfl
  | x :: xs, i + 1 => congrArg (List.cons x) (set_getD_self d xs i)

/-- `gradient[i] += 0` leaves the vector unchanged. -/
theorem gupd_zero (gr : List F) (i : ℕ) : gupd gr i (F.fin 0) = gr := by
  rw [gupd, F.add_fin_zero]
  exact set_getD_self F.nan gr i

/-- `gradient[i] -= 0` leaves the vector unchanged. -/
theorem gsub_zero (gr : List F) (i : ℕ) : gsub gr i (F.fin 0) = gr := by
  rw [gsub, F.sub_fin_zero]
  exact set_getD_self F.nan gr i

/-- IEEE `pow` of a nonnegative finite base with a finite exponent is
finite, provided a zero base does not meet a negative exponent. -/
theorem powfin_fin_of (a b : ℝ) (ha : 0 ≤ a) (h : 0 < a ∨ 0 ≤ b) :
    ∃ t, F.powfin a b = F.fin t := by
  rw [F.powfin]
  split_ifs with h1 h2 h3 h4 h5 h6 h7
  · exact ⟨1, rfl⟩
  · exact ⟨1, rfl⟩
  · exact ⟨a ^ b, rfl⟩
  · exact ⟨0, rfl⟩
  · rcases h with h | h
    · exact absurd h h3
    · exact absurd (lt_of_le_of_ne h (Ne.symm h1)) h5
  all_goals exact absurd (lt_of_le_of_ne ha (Ne.symm h4)) h3

/-- The square of the distance of a vertex from the origin, as an `F`
value, for finite coordinates. -/
theorem canvas_addend_fin (aa bb : ℝ) (m : Model) (hc : m.canvas = 0)
    (hS : 0 < m.canvas_size) (h : 0 < aa * aa + bb * bb ∨ 0 ≤ m.canvas_rigidity) :
    (F.fin m.canvas).mul
      (((((F.fin aa).mul (F.fin aa)).add ((F.fin bb).mul (F.fin bb))).sqrt.div
          (F.fin m.canvas_size)).powf (F.fin m.canvas_rigidity)) = F.fin 0 := by
  have hd : (0:ℝ) ≤ aa * aa + bb * bb := add_nonneg (mul_self_nonneg _) (mul_self_nonneg _)
  simp only [F.mul_fin_fin, F.add_fin_fin]
  rw [F.sqrt_fin _ hd, F.div_fin_fin _ _ hS.ne.symm]
  have hq : 0 ≤ Real.sqrt (aa * aa + bb * bb) / m.canvas_size :=
    div_nonneg (Real.sqrt_nonneg _) hS.le
  have hq2 : 0 < Real.sqrt (aa * aa + bb * bb) / m.canvas_size ∨ 0 ≤ m.canvas_rigidity := by
    rcases h with h | h
    · exact Or.inl (div_pos (Real.sqrt_pos.mpr h) hS)
    · exact Or.inr h
  obtain ⟨t, ht⟩ := powfin_fin_of _ _ hq hq2
  rw [show ((F.fin (Real.sqrt (aa * aa + bb * bb) / m.canvas_size)).powf
    (F.fin m.canvas_rigidity)) = F.powfin (Real.sqrt (aa * aa + bb * bb) / m.canvas_size)
      m.canvas_rigidity from rfl, ht, hc]
  simp

/-- The canvas pass of `cost` adds nothing when `canvas = 0`, the
canvas size is positive, and each vertex is away from the origin or
the rigidity is nonnegative. -/
theorem canvasCost_id (n : ℕ) (loc : List F) (m : Model) (c : F)
    (hc : m.canvas = 0) (hS : 0 < m.canvas_size)
    (hfin : ∀ v, v < n → ∃ aa bb, geti loc (v * 2) = F.fin aa ∧
      geti loc (v * 2 + 1) = F.fin bb ∧
      (0 < aa * aa + bb * bb ∨ 0 ≤ m.canvas_rigidity)) :
    canvasCost n loc m c = c := by
  rw [canvasCost]
  refine foldl_preserve _ _ _ (fun c v1 hv1 => ?_)
  rw [canvasCostStep]
  obtain ⟨aa, bb, ha, hb, hor⟩ := hfin v1 (List.mem_range.mp hv1)
  simp only [ha, hb]
  rw [canvas_addend_fin aa bb m hc hS hor, F.add_fin_zero]

theorem getD_set_ne {α : Type} (l : List α) (d : α) {i x : ℕ} (v : α) (h : i ≠ x) :
    (l.set x v).getD i d = l.getD i d := by
  rw [List.getD_eq_getElem?_getD, List.getElem?_set_ne (Ne.symm h),
    ← List.getD_eq_getElem?_getD]

theorem getD_set_self {α : Type} (l : List α) (d : α) {i : ℕ} (v : α) (h : i < l.length) :
    (l.set i v).getD i d = v := by
  rw [List.getD_eq_getElem?_getD, List.getElem?_set_self h, Option.getD_some]

theorem getD_of_length_le {α : Type} (l : List α) (d : α) {i : ℕ} (h : l.length ≤ i) :
    l.getD i d = d := by
  rw [List.getD_eq_getElem?_getD, List.getElem?_eq_none h, Option.getD_none]

theorem getD_replicate {α : Type} (a d : α) (n i : ℕ) :
    (List.replicate n a).getD i d = if i < n then a else d := by
  rcases lt_or_ge i n with h | h
  · rw [List.getD_eq_getElem _ _ (by simpa using h), List.getElem_replicate, if_pos h]
  · rw [getD_of_length_le _ _ (by simpa using h), if_neg (not_lt.mpr h)]

/-- An entry of a bucket of `bset b x y v` was already in that bucket
of `b`, or belongs to the written list `v`. -/
theorem bget_bset_subset (b : List (List (List (ℕ × F × F)))) (x y i j : ℕ)
    (v : List (ℕ × F × F)) (e : ℕ × F × F) (he : e ∈ bget (bset b x y v) i j) :
    e ∈ bget b i j ∨ e ∈ v := by
  rw [bget, bset] at he
  rcases eq_or_ne i x with rfl | hix
  · rcases lt_or_ge i b.length with hlen | hlen
    · rw [getD_set_self _ _ _ hlen] at he
      rcases eq_or_ne j y with rfl | hjy
      · rcases lt_or_ge j (b.getD i []).length with hlen2 | hlen2
        · rw [getD_set_self _ _ _ hlen2] at he
          exact Or.inr he
        · rw [getD_of_length_le _ _ (by simpa using hlen2)] at he
          exact absurd he (List.not_mem_nil e)
      · rw [getD_set_ne _ _ _ hjy] at he
        exact Or.inl he
    · rw [List.set_eq_of_length_le hlen] at he
      exact Or.inl he
  · rw [getD_set_ne _ _ _ hix] at he
    exact Or.inl he

/-- Every bucket of the freshly initialised grid is empty. -/
theorem bget_init (n i j : ℕ) :
    bget (List.replicate n (List.replicate n ([] : List (ℕ × F × F)))) i j = [] := by
  rw [bget, getD_replicate]
  split
  · rw [getD_replicate]
    split <;> rfl
  · rfl

/-- Every entry bucketed by `Blocking::create` has two finite (stored)
coordinates, and its stored data are the position read from `xs`. -/
theorem create_entries (xs : List F) (nb : ℕ) :
    ∀ i j e, e ∈ bget (Blocking.create xs nb).blocks i j →
      e.2.1 = geti xs (e.1 * 2) ∧ e.2.2 = geti xs (e.1 * 2 + 1) ∧
      e.2.1.isFinite = true ∧ e.2.2.isFinite = true ∧ e.1 < xs.length / 2 := by
  rw [Blocking.create]
  refine foldl_invariant
    (fun b => ∀ i j e, e ∈ bget b i j →
      e.2.1 = geti xs (e.1 * 2) ∧ e.2.2 = geti xs (e.1 * 2 + 1) ∧
      e.2.1.isFinite = true ∧ e.2.2.isFinite = true ∧ e.1 < xs.length / 2) _ _ _
    (fun i j e he => absurd (bget_init nb i j ▸ he) (List.not_mem_nil e))
    (fun b k hk hb i j e he => ?_)
  dsimp only at he
  split at he
  · rename_i hfin
    rcases bget_bset_subset _ _ _ _ _ _ _ he with h | h
    · exact hb i j e h
    · rcases List.mem_append.mp h with h | h
      · exact hb _ _ e h
      · rw [List.mem_singleton] at h
        subst h
        rw [Bool.and_eq_true] at hfin
        exact ⟨rfl, rfl, hfin.1, hfin.2, List.mem_range.mp hk⟩
  · exact hb i j e he

theorem mem_ite_bget {b : List (List (List (ℕ × F × F)))} {i j : ℕ}
    {c : Prop} [Decidable c] {t : ℕ × F × F}
    (h : t ∈ (if c then bget b i j else [])) : ∃ p q, t ∈ bget b p q := by
  split at h
  · exact ⟨i, j, h⟩
  · exact absurd h (List.not_mem_nil t)

/-- Every candidate returned by `Blocking::nearby` was read from one
of the grid's buckets. -/
theorem nearby_from_bucket (bl : Blocking) (x y : F) (t : ℕ × F × F)
    (ht : t ∈ bl.nearby x y) : ∃ i j, t ∈ bget bl.blocks i j := by
  rw [Blocking.nearby] at ht
  split at ht
  · simp only [List.append_assoc, List.mem_append] at ht
    rcases ht with h | h | h | h | h
    · exact ⟨_, _, h⟩
    · split at h
      · simp only [List.append_assoc, List.mem_append] at h
        rcases h with h | h | h
        · exact mem_ite_bget h
        · exact mem_ite_bget h
        · exact ⟨_, _, h⟩
      · exact absurd h (List.not_mem_nil t)
    · split at h
      · simp only [List.append_assoc, List.mem_append] at h
        rcases h with h | h | h
        · exact mem_ite_bget h
        · exact mem_ite_bget h
        · exact ⟨_, _, h⟩
      · exact absurd h (List.not_mem_nil t)
    · exact mem_ite_bget h
    · exact mem_ite_bget h
  · exact absurd ht (List.not_mem_nil t)

/-- The naive repulsion pass of `cost` adds nothing when
`repulse = 0` and the scanned coordinates are finite. -/
theorem repulseCostNaive_id (n : ℕ) (loc : List F) (m : Model) (c : F)
    (hr : m.repulse = 0)
    (hfin : ∀ v, v < n → (geti loc (v * 2)).isFinite = true ∧
      (geti loc (v * 2 + 1)).isFinite = true) :
    repulseCostNaive n loc m c = c := by
  rw [repulseCostNaive]
  refine foldl_preserve _ _ _ (fun c v1 hv1 => ?_)
  refine foldl_preserve _ _ _ (fun c v2 hv2 => ?_)
  rw [repulseCostPairStep]
  split
  · obtain ⟨a1, ha1⟩ := F.eq_fin_of_isFinite (hfin v1 (List.mem_range.mp hv1)).1
    obtain ⟨b1, hb1⟩ := F.eq_fin_of_isFinite (hfin v1 (List.mem_range.mp hv1)).2
    obtain ⟨a2, ha2⟩ := F.eq_fin_of_isFinite (hfin v2 (List.mem_range.mp hv2)).1
    obtain ⟨b2, hb2⟩ := F.eq_fin_of_isFinite (hfin v2 (List.mem_range.mp hv2)).2
    rw [ha1, hb1, ha2, hb2, F.sub_fin_fin, F.sub_fin_fin,
      repulse_cost_zero _ (by simp) (by simp) hr, F.add_fin_zero]
  · rfl

/-- The blocked repulsion pass of `cost` adds nothing when
`repulse = 0` and the vertex coordinates are finite. -/
theorem repulseCostBlocked_id (n : ℕ) (loc : List F) (m : Model) (c : F)
    (hr : m.repulse = 0)
    (hfin : ∀ v, v < n → (geti loc (v * 2)).isFinite = true ∧
      (geti loc (v * 2 + 1)).isFinite = true) :
    repulseCostBlocked n loc m c = c := by
  rw [repulseCostBlocked]
  refine foldl_preserve _ _ _ (fun c v1 hv1 => ?_)
  refine foldl_preserve _ _ _ (fun c t ht => ?_)
  rw [repulseCostPairStep]
  split
  · obtain ⟨a1, ha1⟩ := F.eq_fin_of_isFinite (hfin v1 (List.mem_range.mp hv1)).1
    obtain ⟨b1, hb1⟩ := F.eq_fin_of_isFinite (hfin v1 (List.mem_range.mp hv1)).2
    obtain ⟨i, j, hij⟩ := nearby_from_bucket _ _ _ _ ht
    have hcand := create_entries loc m.n_blocks i j t hij
    obtain ⟨c1, hc1⟩ := F.eq_fin_of_isFinite hcand.2.2.1
    obtain ⟨c2, hc2⟩ := F.eq_fin_of_isFinite hcand.2.2.2.1
    rw [ha1, hb1, hc1, hc2, F.sub_fin_fin, F.sub_fin_fin,
      repulse_cost_zero _ (by simp) (by simp) hr, F.add_fin_zero]
  · rfl

/-- With `repulse = 0` a repulsion pair of finite coordinates leaves
the gradient vector unchanged (both the positive-distance push and the
superposition fallback scale by `repulse`). -/
theorem repulse_grad_zero (gr : List F) (a b : ℝ) (v1 v2 : ℕ) (m : Model)
    (hr : m.repulse = 0) : repulse_grad gr (F.fin a) (F.fin b) v1 v2 m = gr := by
  rw [repulse_grad, hr]
  have hd : (0:ℝ) ≤ a * a + b * b := add_nonneg (mul_self_nonneg _) (mul_self_nonneg _)
  simp only [F.mul_fin_fin, F.add_fin_fin]
  rw [F.sqrt_fin _ hd]
  simp only [F.sub_fin_fin]
  rw [sigma_fin]
  split_ifs with hgt
  · rw [F.gtb_fin_fin] at hgt
    have h0 : 0 < Real.sqrt (a * a + b * b) := of_decide_eq_true hgt
    rw [show ((F.fin (0 * 2 * a)).mul (F.fin (1 / (1 + Real.exp
      (-(m.repulse_dist - Real.sqrt (a * a + b * b))))))) = F.fin 0 from by simp,
      show ((F.fin (0 * 2 * b)).mul (F.fin (1 / (1 + Real.exp
      (-(m.repulse_dist - Real.sqrt (a * a + b * b))))))) = F.fin 0 from by simp,
      F.div_fin_fin _ _ h0.ne.symm]
    simp only [zero_div]
    rw [gsub_zero, gsub_zero]
  · rw [show ((F.fin (0 * 2)).mul (F.fin (1 / (1 + Real.exp
      (-(m.repulse_dist - Real.sqrt (a * a + b * b))))))) = F.fin 0 from by simp]
    simp only [F.cosf_fin, F.sinf_fin, F.mul_fin_fin, zero_mul]
    rw [gsub_zero, gsub_zero]

/-- At distance zero `repulse_grad` takes the superposition branch:
the deterministic fallback nudge derived from `cos(v1)` and
`sin(v2)`. -/
theorem repulse_grad_coincident (gr : List F) (v1 v2 : ℕ) (m : Model) :
    repulse_grad gr (F.fin 0) (F.fin 0) v1 v2 m =
      gsub (gsub gr (v1 * 2)
        (F.fin (m.repulse * 2 * (1 / (1 + Real.exp (-m.repulse_dist))) *
          Real.cos (v1 : ℝ) * 1e-10)))
        (v1 * 2 + 1)
        (F.fin (m.repulse * 2 * (1 / (1 + Real.exp (-m.repulse_dist))) *
          Real.sin (v2 : ℝ) * 1e-10)) := by
  rw [repulse_grad]
  simp only [F.mul_fin_fin, F.add_fin_fin]
  rw [show ((0:ℝ) * 0 + 0 * 0) = 0 from by norm_num, F.sqrt_fin _ le_rfl,
    Real.sqrt_zero, F.gtb_fin_fin]
  simp only [decide_eq_true_eq]
  rw [if_neg (lt_irrefl 0), F.sub_fin_fin, sub_zero, sigma_fin]
  simp only [F.cosf_fin, F.sinf_fin, F.mul_fin_fin]

/-- The naive repulsion pass of `gradient` is the identity when
`repulse = 0` and the vertex coordinates are finite. -/
theorem repulseGradNaive_id (n : ℕ) (loc : List F) (m : Model) (gr : List F)
    (hr : m.repulse = 0)
    (hfin : ∀ v, v < n → (geti loc (v * 2)).isFinite = true ∧
      (geti loc (v * 2 + 1)).isFinite = true) :
    repulseGradNaive n loc m gr = gr := by
  rw [repulseGradNaive]
  refine foldl_preserve _ _ _ (fun gr v1 hv1 => ?_)
  refine foldl_preserve _ _ _ (fun gr v2 hv2 => ?_)
  rw [repulseGradPairStep]
  split
  · obtain ⟨a1, ha1⟩ := F.eq_fin_of_isFinite (hfin v1 (List.mem_range.mp hv1)).1
    obtain ⟨b1, hb1⟩ := F.eq_fin_of_isFinite (hfin v1 (List.mem_range.mp hv1)).2
    obtain ⟨a2, ha2⟩ := F.eq_fin_of_isFinite (hfin v2 (List.mem_range.mp hv2)).1
    obtain ⟨b2, hb2⟩ := F.eq_fin_of_isFinite (hfin v2 (List.mem_range.mp hv2)).2
    rw [ha1, hb1, ha2, hb2, F.sub_fin_fin, F.sub_fin_fin, repulse_grad_zero _ _ _ _ _ _ hr]
  · rfl

/-- The blocked repulsion pass of `gradient` is the identity when
`repulse = 0` and the vertex coordinates are finite. -/
theorem repulseGradBlocked_id (n : ℕ) (loc : List F) (m : Model) (gr : List F)
    (hr : m.repulse = 0)
    (hfin : ∀ v, v < n → (geti loc (v * 2)).isFinite = true ∧
      (geti loc (v * 2 + 1)).isFinite = true) :
    repulseGradBlocked n loc m gr = gr := by
  rw [repulseGradBlocked]
  refine foldl_preserve _ _ _ (fun gr v1 hv1 => ?_)
  refine foldl_preserve _ _ _ (fun gr t ht => ?_)
  rw [repulseGradPairStep]
  split
  · obtain ⟨a1, ha1⟩ := F.eq_fin_of_isFinite (hfin v1 (List.mem_range.mp hv1)).1
    obtain ⟨b1, hb1⟩ := F.eq_fin_of_isFinite (hfin v1 (List.mem_range.mp hv1)).2
    obtain ⟨i, j, hij⟩ := nearby_from_bucket _ _ _ _ ht
    have hcand := create_entries loc m.n_blocks i j t hij
    obtain ⟨c1, hc1⟩ := F.eq_fin_of_isFinite hcand.2.2.1
    obtain ⟨c2, hc2⟩ := F.eq_fin_of_isFinite hcand.2.2.2.1
    rw [ha1, hb1, hc1, hc2, F.sub_fin_fin, F.sub_fin_fin, repulse_grad_zero _ _ _ _ _ _ hr]
  · rfl

/-- The canvas-gradient addend, with `canvas = 0`, a positive canvas
size and a vertex either away from the origin or with rigidity at
least 2, is exactly zero. -/
theorem canvas_grad_addend_zero (dd x : ℝ) (m : Model) (hc : m.canvas = 0)
    (hS : 0 < m.canvas_size) (hdd : 0 ≤ dd) (hor : 0 < dd ∨ 2 ≤ m.canvas_rigidity) :
    ((((F.fin m.canvas).mul ((F.fin m.canvas_size).powf
        (F.fin (-m.canvas_rigidity)))).mul (F.fin m.canvas_rigidity)).mul
      (F.fin x)).mul ((F.fin dd).powf (F.fin (m.canvas_rigidity - 2))) = F.fin 0 := by
  obtain ⟨t1, ht1⟩ := powfin_fin_of m.canvas_size (-m.canvas_rigidity) hS.le (Or.inl hS)
  obtain ⟨t2, ht2⟩ := powfin_fin_of dd (m.canvas_rigidity - 2) hdd
    (by
      rcases hor with h | h
      · exact Or.inl h
      · exact Or.inr (by linarith))
  rw [show (F.fin m.canvas_size).powf (F.fin (-m.canvas_rigidity)) =
    F.powfin m.canvas_size (-m.canvas_rigidity) from rfl, ht1,
    show (F.fin dd).powf (F.fin (m.canvas_rigidity - 2)) =
      F.powfin dd (m.canvas_rigidity - 2) from rfl, ht2, hc]
  simp

/-- The canvas pass of `gradient` is the identity when `canvas = 0`,
the canvas size is positive, and each vertex is away from the origin
or the rigidity is at least 2. -/
theorem canvasGrad_id (n : ℕ) (loc : List F) (m : Model) (gr : List F)
    (hc : m.canvas = 0) (hS : 0 < m.canvas_size)
    (hfin : ∀ v, v < n → ∃ aa bb, geti loc (v * 2) = F.fin aa ∧
      geti loc (v * 2 + 1) = F.fin bb ∧
      (0 < aa * aa + bb * bb ∨ 2 ≤ m.canvas_rigidity)) :
    canvasGrad n loc m gr = gr := by
  rw [canvasGrad]
  refine foldl_preserve _ _ _ (fun gr v1 hv1 => ?_)
  rw [canvasGradStep]
  obtain ⟨aa, bb, ha, hb, hor⟩ := hfin v1 (List.mem_range.mp hv1)
  have hor' : 0 < Real.sqrt (aa * aa + bb * bb) ∨ 2 ≤ m.canvas_rigidity := by
    rcases hor with h | h
    · exact Or.inl (Real.sqrt_pos.mpr h)
    · exact Or.inr h
  simp only [ha, hb, F.mul_fin_fin, F.add_fin_fin]
  rw [F.sqrt_fin _ (add_nonneg (mul_self_nonneg _) (mul_self_nonneg _)),
    canvas_grad_addend_zero _ _ _ hc hS (Real.sqrt_nonneg _) hor',
    canvas_grad_addend_zero _ _ _ hc hS (Real.sqrt_nonneg _) hor',
    gupd_zero, gupd_zero]

/-! ### Concrete evaluation helpers -/

theorem gupd4_0 (a b c d v : F) : gupd [a, b, c, d] 0 v = [a.add v, b, c, d] := rfl

theorem gupd4_1 (a b c d v : F) : gupd [a, b, c, d] 1 v = [a, b.add v, c, d] := rfl

theorem gupd4_2 (a b c d v : F) : gupd [a, b, c, d] 2 v = [a, b, c.add v, d] := rfl

theorem gupd4_3 (a b c d v : F) : gupd [a, b, c, d] 3 v = [a, b, c, d.add v] := rfl

theorem gsub4_0 (a b c d v : F) : gsub [a, b, c, d] 0 v = [a.sub v, b, c, d] := rfl

theorem gsub4_1 (a b c d v : F) : gsub [a, b, c, d] 1 v = [a, b.sub v, c, d] := rfl

theorem gsub4_2 (a b c d v : F) : gsub [a, b, c, d] 2 v = [a, b, c.sub v, d] := rfl

theorem gsub4_3 (a b c d v : F) : gsub [a, b, c, d] 3 v = [a, b, c, d.sub v] := rfl

/-- Evaluate one spring-gradient step on finite coordinate differences
at positive distance. -/
theorem springGradStep_eval (loc : List F) (m : Model) (gr : List F) (e : Edge)
    (a b : ℝ) (ha : (geti loc (e.src * 2)).sub (geti loc (e.trg * 2)) = F.fin a)
    (hb : (geti loc (e.src * 2 + 1)).sub (geti loc (e.trg * 2 + 1)) = F.fin b)
    (hpos : 0 < a * a + b * b) :
    springGradStep loc m gr e =
      gsub (gsub (gupd (gupd gr (e.src * 2)
        (F.fin (m.spring * a / Real.sqrt (a * a + b * b))))
        (e.src * 2 + 1) (F.fin (m.spring * b / Real.sqrt (a * a + b * b))))
        (e.trg * 2) (F.fin (m.spring * a / Real.sqrt (a * a + b * b))))
        (e.trg * 2 + 1) (F.fin (m.spring * b / Real.sqrt (a * a + b * b))) := by
  have hs : 0 < Real.sqrt (a * a + b * b) := Real.sqrt_pos.mpr hpos
  rw [springGradStep]
  simp only [ha, hb, F.mul_fin_fin, F.add_fin_fin]
  rw [F.sqrt_fin _ hpos.le, F.gtb_fin_fin]
  simp only [decide_eq_true_eq]
  rw [if_pos hs]
  rw [F.div_fin_fin _ _ hs.ne.symm, F.div_fin_fin _ _ hs.ne.symm]

/-! ### Builder facts -/

theorem add_vertex_edges (g : Graph) (name : String) :
    (g.add_vertex name).1.edges = g.edges := by
  rw [Graph.add_vertex]
  cases hv : g.values.lookup name <;> simp [hv]

theorem buildLinks_edges_length (links : List Link) :
    ∀ (g : Graph) (v1 : ℕ),
    ((links.foldl (fun g link =>
      let q := g.add_vertex link.target
      { q.1 with edges := q.1.edges ++ [Edge.mk v1 q.2, Edge.mk q.2 v1] }) g).edges).length =
      g.edges.length + 2 * links.length := by
  induction links with
  | nil => intro g v1; simp
  | cons hd tl ih =>
      intro g v1
      rw [List.foldl_cons, ih]
      simp only [add_vertex_edges, List.length_append]
      simp
      ring

/-- The two-record dataset used by several testable properties: a
record `A` with one link to `B`. -/
def dsA_B : Dataset := { identifier := "A", links := [{ target := "B" }] }

/-- The graph the builder produces from `dsA_B`. -/
def gAB : Graph := build_graph [dsA_B]

/-- **C6.** `build_graph` registers, for each record with at least one
outbound link, the record's identifier and each link target as
vertices and appends exactly the two directed edges `(src, trg)` and
`(trg, src)` per link; a record with zero links yields no vertex (the
built graph is unchanged by its presence), and the entry `A` linking
once to `B` yields exactly the vertices `A ↦ 0`, `B ↦ 1` and the
edges `(0, 1)`, `(1, 0)`. -/
theorem C6_build_graph (pre post : List Dataset) (d : Dataset) (hlinks : d.links = [])
    (g : Graph) (d2 : Dataset) (h2 : d2.links ≠ []) (id : String) (l : Link) :
    build_graph (pre ++ d :: post) = build_graph (pre ++ post) ∧
    gAB.n = 2 ∧ gAB.values = [("A", 0), ("B", 1)] ∧
    gAB.edges = [Edge.mk 0 1, Edge.mk 1 0] ∧
    (buildStep g { identifier := id, links := [l] }).edges =
      g.edges ++ [Edge.mk (g.add_vertex id).2 ((g.add_vertex id).1.add_vertex l.target).2,
        Edge.mk ((g.add_vertex id).1.add_vertex l.target).2 (g.add_vertex id).2] ∧
    (buildStep g d2).edges.length = g.edges.length + 2 * d2.links.length := by
  refine ⟨?_, rfl, rfl, rfl, ?_, ?_⟩
  · rw [build_graph, build_graph, List.foldl_append, List.foldl_append,
      List.foldl_cons, show buildStep (pre.foldl buildStep Graph.new) d =
        pre.foldl buildStep Graph.new from by simp [buildStep, hlinks]]
  · simp [buildStep, add_vertex_edges]
  · rw [buildStep, if_neg (by simp [List.isEmpty_iff, h2]), buildLinks_edges_length,
      add_vertex_edges]

theorem C6_witness :
    (Dataset.links { identifier := "C", links := [] } = []) ∧
    ((⟨"D", [⟨"E"⟩]⟩ : Dataset).links ≠ []) ∧
    (build_graph ([] ++ ⟨"C", []⟩ :: [dsA_B]) = build_graph ([] ++ [dsA_B]) ∧
      gAB.n = 2 ∧ gAB.values = [("A", 0), ("B", 1)] ∧
      gAB.edges = [Edge.mk 0 1, Edge.mk 1 0] ∧
      (buildStep Graph.new { identifier := "D", links := [⟨"E"⟩] }).edges =
        Graph.new.edges ++
          [Edge.mk (Graph.new.add_vertex "D").2
            ((Graph.new.add_vertex "D").1.add_vertex (Link.mk "E").target).2,
          Edge.mk ((Graph.new.add_vertex "D").1.add_vertex (Link.mk "E").target).2
            (Graph.new.add_vertex "D").2] ∧
      (buildStep Graph.new (⟨"D", [⟨"E"⟩]⟩ : Dataset)).edges.length =
        Graph.new.edges.length + 2 * (⟨"D", [⟨"E"⟩]⟩ : Dataset).links.length) :=
  ⟨rfl, by simp,
    C6_build_graph [] [dsA_B] ⟨"C", []⟩ rfl Graph.new ⟨"D", [⟨"E"⟩]⟩ (by simp) "D" ⟨"E"⟩⟩

/-! ### C1: the builder's two-vertex graph -/

/-- **C1.** For the builder's two-vertex graph with the reciprocal
edge pair `(0,1)`, `(1,0)` and a model with `spring = 1`,
`repulse = 0`, `canvas = 0` on the naive path (with a positive canvas
size, and the rigidity/position side conditions under which the zero
canvas coefficient annihilates its unguarded term), the cost is twice
the Euclidean distance of the two positions and the gradient assigns
vertex 0 the vector `2 * unit(p0 - p1)` and vertex 1 its negation:
each undirected link is stored as two directed edges whose spring
contributions both count. -/
theorem C1_two_vertex_pair (x0 y0 x1 y1 : ℝ) (m : Model)
    (hsp : m.spring = 1) (hr : m.repulse = 0) (hc : m.canvas = 0)
    (hnb : m.n_blocks ≤ 1) (hS : 0 < m.canvas_size)
    (hrig : 2 ≤ m.canvas_rigidity ∨
      ((x0, y0) ≠ ((0:ℝ), (0:ℝ)) ∧ (x1, y1) ≠ ((0:ℝ), (0:ℝ))))
    (hne : (x0, y0) ≠ (x1, y1)) :
    gAB.cost [F.fin x0, F.fin y0, F.fin x1, F.fin y1] m =
      F.fin (2 * Real.sqrt ((x0 - x1) ^ 2 + (y0 - y1) ^ 2)) ∧
    gAB.gradient [F.fin x0, F.fin y0, F.fin x1, F.fin y1] m =
      [F.fin (2 * (x0 - x1) / Real.sqrt ((x0 - x1) ^ 2 + (y0 - y1) ^ 2)),
       F.fin (2 * (y0 - y1) / Real.sqrt ((x0 - x1) ^ 2 + (y0 - y1) ^ 2)),
       F.fin (-(2 * (x0 - x1) / Real.sqrt ((x0 - x1) ^ 2 + (y0 - y1) ^ 2))),
       F.fin (-(2 * (y0 - y1) / Real.sqrt ((x0 - x1) ^ 2 + (y0 - y1) ^ 2)))] := by
  have hxy : x0 ≠ x1 ∨ y0 ≠ y1 := by
    by_contra hcon
    push_neg at hcon
    exact hne (by rw [hcon.1, hcon.2])
  have hC : 0 < (x0 - x1) * (x0 - x1) + (y0 - y1) * (y0 - y1) := by
    rcases hxy with h | h
    · have h1 : 0 < (x0 - x1) * (x0 - x1) := mul_self_pos.mpr (sub_ne_zero.mpr h)
      nlinarith [mul_self_nonneg (y0 - y1)]
    · have h1 : 0 < (y0 - y1) * (y0 - y1) := mul_self_pos.mpr (sub_ne_zero.mpr h)
      nlinarith [mul_self_nonneg (x0 - x1)]
  have hC2 : 0 < (x1 - x0) * (x1 - x0) + (y1 - y0) * (y1 - y0) := by nlinarith
  have hCsq : ((x0 - x1) * (x0 - x1) + (y0 - y1) * (y0 - y1)) =
      (x0 - x1) ^ 2 + (y0 - y1) ^ 2 := by ring
  have hCsq2 : ((x1 - x0) * (x1 - x0) + (y1 - y0) * (y1 - y0)) =
      (x0 - x1) ^ 2 + (y0 - y1) ^ 2 := by ring
  have hCpos : 0 < (x0 - x1) ^ 2 + (y0 - y1) ^ 2 := hCsq ▸ hC
  have hsq : 0 < Real.sqrt ((x0 - x1) ^ 2 + (y0 - y1) ^ 2) := Real.sqrt_pos.mpr hCpos
  have hkey : ∀ a b : ℝ, (a, b) ≠ ((0:ℝ), (0:ℝ)) → 0 < a * a + b * b := by
    intro a b hab
    have hone : a ≠ 0 ∨ b ≠ 0 := by
      by_contra hcon
      push_neg at hcon
      exact hab (by rw [hcon.1, hcon.2])
    rcases hone with h | h
    · nlinarith [mul_self_pos.mpr h, mul_self_nonneg b]
    · nlinarith [mul_self_pos.mpr h, mul_self_nonneg a]
  have hfin1 : ∀ v, v < gAB.n →
      (geti [F.fin x0, F.fin y0, F.fin x1, F.fin y1] (v * 2)).isFinite = true ∧
      (geti [F.fin x0, F.fin y0, F.fin x1, F.fin y1] (v * 2 + 1)).isFinite = true := by
    intro v hv
    have hv2 : v < 2 := hv
    interval_cases v
    · exact ⟨rfl, rfl⟩
    · exact ⟨rfl, rfl⟩
  have hfin2g : ∀ v, v < gAB.n →
      ∃ aa bb, geti [F.fin x0, F.fin y0, F.fin x1, F.fin y1] (v * 2) = F.fin aa ∧
      geti [F.fin x0, F.fin y0, F.fin x1, F.fin y1] (v * 2 + 1) = F.fin bb ∧
      (0 < aa * aa + bb * bb ∨ 2 ≤ m.canvas_rigidity) := by
    intro v hv
    have hv2 : v < 2 := hv
    interval_cases v
    · refine ⟨x0, y0, rfl, rfl, ?_⟩
      rcases hrig with h | h
      · exact Or.inr h
      · exact Or.inl (hkey _ _ h.1)
    · refine ⟨x1, y1, rfl, rfl, ?_⟩
      rcases hrig with h | h
      · exact Or.inr h
      · exact Or.inl (hkey _ _ h.2)
  have hfin2c : ∀ v, v < gAB.n →
      ∃ aa bb, geti [F.fin x0, F.fin y0, F.fin x1, F.fin y1] (v * 2) = F.fin aa ∧
      geti [F.fin x0, F.fin y0, F.fin x1, F.fin y1] (v * 2 + 1) = F.fin bb ∧
      (0 < aa * aa + bb * bb ∨ 0 ≤ m.canvas_rigidity) := by
    intro v hv
    obtain ⟨aa, bb, h1, h2, h3⟩ := hfin2g v hv
    refine ⟨aa, bb, h1, h2, ?_⟩
    rcases h3 with h | h
    · exact Or.inl h
    · exact Or.inr (by linarith)
  constructor
  · show canvasCost gAB.n [F.fin x0, F.fin y0, F.fin x1, F.fin y1] m
      (if 1 < m.n_blocks then
        repulseCostBlocked gAB.n [F.fin x0, F.fin y0, F.fin x1, F.fin y1] m
          (springCost gAB.edges [F.fin x0, F.fin y0, F.fin x1, F.fin y1] m (F.fin 0))
       else
        repulseCostNaive gAB.n [F.fin x0, F.fin y0, F.fin x1, F.fin y1] m
          (springCost gAB.edges [F.fin x0, F.fin y0, F.fin x1, F.fin y1] m (F.fin 0))) = _
    rw [if_neg (by omega), repulseCostNaive_id _ _ _ _ hr hfin1,
      canvasCost_id _ _ _ _ hc hS hfin2c]
    have hspr : springCost gAB.edges [F.fin x0, F.fin y0, F.fin x1, F.fin y1] m
        (F.fin 0) =
        ((F.fin 0).add ((F.fin m.spring).mul
          (F.fin ((x0 + -x1) * (x0 + -x1) + (y0 + -y1) * (y0 + -y1))).sqrt)).add
          ((F.fin m.spring).mul
            (F.fin ((x1 + -x0) * (x1 + -x0) + (y1 + -y0) * (y1 + -y0))).sqrt) := rfl
    rw [show ((x0 + -x1) * (x0 + -x1) + (y0 + -y1) * (y0 + -y1)) =
        (x0 - x1) ^ 2 + (y0 - y1) ^ 2 from by ring,
      show ((x1 + -x0) * (x1 + -x0) + (y1 + -y0) * (y1 + -y0)) =
        (x0 - x1) ^ 2 + (y0 - y1) ^ 2 from by ring] at hspr
    rw [F.sqrt_fin _ hCpos.le] at hspr
    simp only [F.mul_fin_fin, F.add_fin_fin] at hspr
    rw [hspr, hsp]
    exact congrArg F.fin (by ring)
  · show canvasGrad gAB.n [F.fin x0, F.fin y0, F.fin x1, F.fin y1] m
      (if 1 < m.n_blocks then
        repulseGradBlocked gAB.n [F.fin x0, F.fin y0, F.fin x1, F.fin y1] m
          (springGrad gAB.edges [F.fin x0, F.fin y0, F.fin x1, F.fin y1] m
            (List.replicate (gAB.n * 2) (F.fin 0)))
       else
        repulseGradNaive gAB.n [F.fin x0, F.fin y0, F.fin x1, F.fin y1] m
          (springGrad gAB.edges [F.fin x0, F.fin y0, F.fin x1, F.fin y1] m
            (List.replicate (gAB.n * 2) (F.fin 0)))) = _
    rw [if_neg (by omega), repulseGradNaive_id _ _ _ _ hr hfin1,
      canvasGrad_id _ _ _ _ hc hS hfin2g]
    simp only [show gAB.edges = [Edge.mk 0 1, Edge.mk 1 0] from rfl, springGrad,
      List.foldl_cons, List.foldl_nil]
    rw [springGradStep_eval [F.fin x0, F.fin y0, F.fin x1, F.fin y1] m _ (Edge.mk 0 1)
      (x0 - x1) (y0 - y1) (F.sub_fin_fin x0 x1) (F.sub_fin_fin y0 y1) hC]
    rw [springGradStep_eval [F.fin x0, F.fin y0, F.fin x1, F.fin y1] m _ (Edge.mk 1 0)
      (x1 - x0) (y1 - y0) (F.sub_fin_fin x1 x0) (F.sub_fin_fin y1 y0) hC2]
    rw [hCsq, hCsq2, hsp]
    simp only [show ((Edge.mk 0 1).src) = 0 from rfl, show ((Edge.mk 0 1).trg) = 1 from rfl,
      show ((Edge.mk 1 0).src) = 1 from rfl, show ((Edge.mk 1 0).trg) = 0 from rfl,
      show List.replicate (gAB.n * 2) (F.fin 0) =
        [F.fin 0, F.fin 0, F.fin 0, F.fin 0] from rfl]
    simp only [show (0:ℕ) * 2 = 0 from rfl, show (1:ℕ) * 2 = 2 from rfl,
      show (0:ℕ) + 1 = 1 from rfl, show (2:ℕ) + 1 = 3 from rfl]
    simp only [gupd4_0, gupd4_1, gupd4_2, gupd4_3, gsub4_0, gsub4_1, gsub4_2, gsub4_3,
      F.add_fin_fin, F.sub_fin_fin]
    simp only [List.cons.injEq, F.fin.injEq, and_true]
    refine ⟨?_, ?_, ?_, ?_⟩ <;> ring

/-- The model used to instantiate C1: `spring = 1`, canvas size 1,
canvas rigidity 2, everything else zero. -/
def mC1 : Model :=
  { spring := 1, repulse := 0, repulse_dist := 0, repulse_rigidity := 0,
    canvas := 0, canvas_size := 1, canvas_rigidity := 2, n_blocks := 0 }

theorem C1_witness :
    (0:ℝ) < mC1.canvas_size ∧
    (gAB.cost [F.fin 3, F.fin 4, F.fin 0, F.fin 0] mC1 =
        F.fin (2 * Real.sqrt ((3 - 0) ^ 2 + (4 - 0) ^ 2)) ∧
      gAB.gradient [F.fin 3, F.fin 4, F.fin 0, F.fin 0] mC1 =
        [F.fin (2 * (3 - 0) / Real.sqrt ((3 - 0) ^ 2 + (4 - 0) ^ 2)),
         F.fin (2 * (4 - 0) / Real.sqrt ((3 - 0) ^ 2 + (4 - 0) ^ 2)),
         F.fin (-(2 * (3 - 0) / Real.sqrt ((3 - 0) ^ 2 + (4 - 0) ^ 2))),
         F.fin (-(2 * (4 - 0) / Real.sqrt ((3 - 0) ^ 2 + (4 - 0) ^ 2)))]) :=
  ⟨by norm_num [mC1],
    C1_two_vertex_pair 3 4 0 0 mC1 rfl rfl rfl (by norm_num [mC1]) (by norm_num [mC1])
      (Or.inl (by norm_num [mC1])) (by norm_num [Prod.ext_iff])⟩

/-! ### Non-finite propagation lemmas -/

/-- A product with a non-finite first factor is non-finite. -/
theorem F.mul_nonfinite_left {x : F} (y : F) (h : x.isFinite = false) :
    ((x.mul y).isFinite) = false := by
  cases x <;> cases y <;>
    first
      | rfl
      | exact Bool.noConfusion h
      | exact F.isFinite_if3 _ _ _ rfl rfl rfl

theorem F.mul_fin_inf (c : ℝ) : (((F.fin c).mul F.inf).isFinite) = false :=
  F.isFinite_if3 _ _ _ rfl rfl rfl

/-- IEEE `pow(+0, b) = +inf` for a negative exponent. -/
theorem powfin_zero_neg {b : ℝ} (hb : b < 0) : F.powfin 0 b = F.inf := by
  rw [F.powfin, if_neg hb.ne, if_neg (by norm_num : (0:ℝ) ≠ 1),
    if_neg (lt_irrefl 0), if_pos rfl, if_neg (not_lt.mpr hb.le)]

theorem gupd_getD_self (gr : List F) (i : ℕ) (w : F) :
    (gupd gr i w).getD i F.nan =
      if i < gr.length then (gr.getD i F.nan).add w else F.nan := by
  rw [gupd]
  split
  · rename_i h
    exact getD_set_self _ _ _ h
  · rename_i h
    rw [List.set_eq_of_length_le (not_lt.mp h), getD_of_length_le _ _ (not_lt.mp h)]

theorem gupd_getD_ne (gr : List F) {i j : ℕ} (w : F) (h : i ≠ j) :
    (gupd gr j w).getD i F.nan = gr.getD i F.nan := by
  rw [gupd]
  exact getD_set_ne _ _ _ h

theorem gupd2_0 (a b v : F) : gupd [a, b] 0 v = [a.add v, b] := rfl

theorem gupd2_1 (a b v : F) : gupd [a, b] 1 v = [a, b.add v] := rfl

/-- A fold over gradient vectors whose every step either leaves slot
`i` unchanged or makes it non-finite keeps a non-finite slot `i`
non-finite. -/
theorem foldl_getD_absorb {α : Type} (step : List F → α → List F) (l : List α)
    (gr : List F) (i : ℕ)
    (hstep : ∀ gr x, x ∈ l → (step gr x).getD i F.nan = gr.getD i F.nan ∨
      ((step gr x).getD i F.nan).isFinite = false)
    (hgr : (gr.getD i F.nan).isFinite = false) :
    ((l.foldl step gr).getD i F.nan).isFinite = false := by
  induction l generalizing gr with
  | nil => exact hgr
  | cons hd tl ih =>
      rw [List.foldl_cons]
      refine ih (step gr hd) (fun gr x hx => hstep gr x (List.mem_cons_of_mem _ hx)) ?_
      rcases hstep gr hd (by simp) with h | h
      · rw [h]
        exact hgr
      · exact h

/-- A fold over gradient vectors that hits one step making slot `i`
non-finite, all other steps leaving it unchanged or non-finite, ends
with a non-finite slot `i`. -/
theorem foldl_getD_hit {α : Type} (step : List F → α → List F) (l : List α)
    (gr : List F) (i : ℕ) (v : α) (hv : v ∈ l)
    (hhit : ∀ gr, ((step gr v).getD i F.nan).isFinite = false)
    (hstep : ∀ gr x, x ∈ l → (step gr x).getD i F.nan = gr.getD i F.nan ∨
      ((step gr x).getD i F.nan).isFinite = false) :
    ((l.foldl step gr).getD i F.nan).isFinite = false := by
  induction l generalizing gr with
  | nil => simp at hv
  | cons hd tl ih =>
      rw [List.foldl_cons]
      rcases List.mem_cons.mp hv with h | h
      · subst h
        exact foldl_getD_absorb step tl (step gr v) i
          (fun gr x hx => hstep gr x (List.mem_cons_of_mem _ hx)) (hhit gr)
      · exact ih (step gr hd) h
          (fun gr x hx => hstep gr x (List.mem_cons_of_mem _ hx))

/-- A canvas-gradient step for a vertex other than `v` does not touch
slot `i` of `v`. -/
theorem canvasGradStep_getD_ne (loc : List F) (m : Model) (gr : List F) (x i : ℕ)
    (h1 : i ≠ x * 2) (h2 : i ≠ x * 2 + 1) :
    (canvasGradStep loc m gr x).getD i F.nan = gr.getD i F.nan := by
  simp only [canvasGradStep]
  rw [gupd_getD_ne _ _ h2, gupd_getD_ne _ _ h1]

/-- With `canvas_size = 0` and positive rigidity, the canvas-gradient
step makes both slots of its vertex non-finite
(`0^(-r) = +inf` propagates through the products). -/
theorem canvasGradStep_nonfinite_S0 (loc : List F) (m : Model) (v : ℕ)
    (hS : m.canvas_size = 0) (hr : 0 < m.canvas_rigidity) :
    ∀ gr, ((canvasGradStep loc m gr v).getD (v * 2) F.nan).isFinite = false ∧
      ((canvasGradStep loc m gr v).getD (v * 2 + 1) F.nan).isFinite = false := by
  intro gr
  have hpow : (F.fin m.canvas_size).powf (F.fin (-m.canvas_rigidity)) = F.inf := by
    rw [hS, show (F.fin (0:ℝ)).powf (F.fin (-m.canvas_rigidity)) =
      F.powfin 0 (-m.canvas_rigidity) from rfl]
    exact powfin_zero_neg (neg_lt_zero.mpr hr)
  have haddend : ∀ z w : F,
      (((((F.fin m.canvas).mul F.inf).mul (F.fin m.canvas_rigidity)).mul z).mul
        w).isFinite = false :=
    fun z w => F.mul_nonfinite_left _ (F.mul_nonfinite_left _
      (F.mul_nonfinite_left _ (F.mul_fin_inf _)))
  simp only [canvasGradStep, hpow]
  constructor
  · rw [gupd_getD_ne _ _ (by omega), gupd_getD_self]
    split
    · exact F.add_nonfinite_right _ (haddend _ _)
    · rfl
  · rw [gupd_getD_self]
    split
    · exact F.add_nonfinite_right _ (haddend _ _)
    · rfl

/-- With a positive canvas size, rigidity below 2 and the vertex at
the origin, the canvas-gradient step makes both slots of its vertex
non-finite (`0 * 0^(r-2) = 0 * inf = NaN`). -/
theorem canvasGradStep_nonfinite_origin (loc : List F) (m : Model) (v : ℕ)
    (hS : 0 < m.canvas_size) (hr : m.canvas_rigidity < 2)
    (hx : geti loc (v * 2) = F.fin 0) (hy : geti loc (v * 2 + 1) = F.fin 0) :
    ∀ gr, ((canvasGradStep loc m gr v).getD (v * 2) F.nan).isFinite = false ∧
      ((canvasGradStep loc m gr v).getD (v * 2 + 1) F.nan).isFinite = false := by
  intro gr
  obtain ⟨t, ht⟩ := powfin_fin_of m.canvas_size (-m.canvas_rigidity) hS.le (Or.inl hS)
  have hpow : (F.fin m.canvas_size).powf (F.fin (-m.canvas_rigidity)) = F.fin t := ht
  have hd2 : (F.fin (0:ℝ)).powf (F.fin (m.canvas_rigidity - 2)) = F.inf := by
    rw [show (F.fin (0:ℝ)).powf (F.fin (m.canvas_rigidity - 2)) =
      F.powfin 0 (m.canvas_rigidity - 2) from rfl]
    exact powfin_zero_neg (by linarith)
  simp only [canvasGradStep, hx, hy, hpow, F.mul_fin_fin, F.add_fin_fin]
  rw [show ((0:ℝ) * 0 + 0 * 0) = 0 from by norm_num, F.sqrt_fin _ le_rfl,
    Real.sqrt_zero, hd2,
    show m.canvas * t * m.canvas_rigidity * 0 = 0 from by ring]
  constructor
  · rw [gupd_getD_ne _ _ (by omega), gupd_getD_self]
    split
    · exact F.add_nonfinite_right _ (F.mul_nonfinite_right _ rfl)
    · rfl
  · rw [gupd_getD_self]
    split
    · exact F.add_nonfinite_right _ (F.mul_nonfinite_right _ rfl)
    · rfl

theorem F.div_nonfinite_left {x : F} (b : ℝ) (h : x.isFinite = false) :
    ((x.div (F.fin b)).isFinite) = false := by
  cases x
  · exact absurd h (by simp)
  · show (if b < 0 then F.ninf else F.inf).isFinite = false
    split <;> rfl
  · show (if b < 0 then F.inf else F.ninf).isFinite = false
    split <;> rfl
  · rfl

theorem F.powf_nonfinite_base {x : F} (r : ℝ) (hx : x.isFinite = false) (hr : 0 < r) :
    ((x.powf (F.fin r)).isFinite) = false := by
  cases x
  · exact absurd hx (by simp)
  · simp only [F.powf]
    rw [if_neg hr.ne.symm, if_pos hr]
    rfl
  · simp only [F.powf]
    rw [if_neg hr.ne.symm, if_pos hr]
    split <;> rfl
  · simp only [F.powf]
    rw [if_neg hr.ne.symm]
    rfl

/-- The canvas-cost addend of a vertex with a non-finite coordinate is
non-finite whenever the rigidity is positive. -/
theorem canvasCostStep_nonfinite (loc : List F) (m : Model) (v : ℕ)
    (hrig : 0 < m.canvas_rigidity)
    (hnf : (geti loc (v * 2)).isFinite = false ∨
      (geti loc (v * 2 + 1)).isFinite = false) :
    ∀ c, (canvasCostStep loc m c v).isFinite = false := by
  intro c
  rw [canvasCostStep]
  have hd : ((((geti loc (v * 2)).mul (geti loc (v * 2))).add
      ((geti loc (v * 2 + 1)).mul (geti loc (v * 2 + 1)))).isFinite) = false := by
    rcases hnf with h | h
    · exact F.add_nonfinite_left _ (F.mul_self_nonfinite h)
    · exact F.add_nonfinite_right _ (F.mul_self_nonfinite h)
  exact F.add_nonfinite_right c (F.mul_nonfinite_right _
    (F.powf_nonfinite_base _ (F.div_nonfinite_left _ (F.sqrt_nonfinite hd)) hrig))

/-! ### C3: coincident points -/

theorem pos_of_ne_origin (a b : ℝ) (h : (a, b) ≠ ((0:ℝ), (0:ℝ))) : 0 < a * a + b * b := by
  have hone : a ≠ 0 ∨ b ≠ 0 := by
    by_contra hcon
    push_neg at hcon
    exact h (by rw [hcon.1, hcon.2])
  rcases hone with h1 | h1
  · nlinarith [mul_self_pos.mpr h1, mul_self_nonneg b]
  · nlinarith [mul_self_pos.mpr h1, mul_self_nonneg a]

theorem F.div_fin_zero_pos {a : ℝ} (h : 0 < a) : (F.fin a).div (F.fin 0) = F.inf := by
  simp [F.div, h]

theorem F.powf_inf_pos {b : ℝ} (hb : 0 < b) : F.inf.powf (F.fin b) = F.inf := by
  simp [F.powf, hb, hb.ne.symm]

theorem F.mul_zero_inf : (F.fin 0).mul F.inf = F.nan := by
  simp [F.mul]

/-- The two-vertex, zero-edge graph built by two `add_vertex` calls. -/
def g2v : Graph := ((Graph.new.add_vertex "A").1.add_vertex "B").1

/-- A spring edge whose endpoints coincide at finite positions adds
`m.spring * sqrt(0) = 0` to the cost accumulator: the cost step is the
identity there. -/
theorem springCostStep_coincident (loc : List F) (m : Model) (c : ℝ) (e : Edge) (p q : ℝ)
    (h1 : geti loc (e.src * 2) = F.fin p) (h2 : geti loc (e.trg * 2) = F.fin p)
    (h3 : geti loc (e.src * 2 + 1) = F.fin q) (h4 : geti loc (e.trg * 2 + 1) = F.fin q) :
    springCostStep loc m (F.fin c) e = F.fin c := by
  rw [springCostStep]
  simp only [h1, h2, h3, h4, F.sub_fin_fin, sub_self, F.mul_fin_fin, F.add_fin_fin]
  rw [show ((0:ℝ) * 0 + 0 * 0) = 0 from by norm_num, F.sqrt_fin _ le_rfl,
    Real.sqrt_zero, F.mul_fin_fin, F.add_fin_fin]
  exact congrArg F.fin (by ring)

/-- The zero-distance guard of the spring gradient (`d > 0.0` in the
source): an edge with coincident finite endpoints contributes nothing
to the gradient vector. -/
theorem springGradStep_coincident (loc : List F) (m : Model) (gr : List F) (e : Edge)
    (p q : ℝ)
    (h1 : geti loc (e.src * 2) = F.fin p) (h2 : geti loc (e.trg * 2) = F.fin p)
    (h3 : geti loc (e.src * 2 + 1) = F.fin q) (h4 : geti loc (e.trg * 2 + 1) = F.fin q) :
    springGradStep loc m gr e = gr := by
  rw [springGradStep]
  simp only [h1, h2, h3, h4, F.sub_fin_fin, sub_self, F.mul_fin_fin, F.add_fin_fin]
  rw [show ((0:ℝ) * 0 + 0 * 0) = 0 from by norm_num, F.sqrt_fin _ le_rfl,
    Real.sqrt_zero, F.gtb_fin_fin]
  simp only [decide_eq_true_eq]
  rw [if_neg (lt_irrefl 0)]

/-- A finite-parameter model violating the caller's `canvas_size > 0`
responsibility: repulsion-only with `canvas_size = 0`. -/
def mC3bad : Model :=
  { spring := 0, repulse := 1, repulse_dist := 0, repulse_rigidity := 0,
    canvas := 0, canvas_size := 0, canvas_rigidity := 1, n_blocks := 1 }

/-- **C3, counterexample.** With finite model parameters
(`canvas_size = 0`, everything repulsion-only) and two coincident
points away from the origin, the cost is NaN (through the unguarded
canvas term `0 * (d/0)^1`), so it is not finite as the claim states. -/
theorem C3_counterexample :
    (g2v.cost [F.fin 1, F.fin 0, F.fin 1, F.fin 0] mC3bad).isFinite = false := by
  have hstep : ∀ c : F,
      canvasCostStep [F.fin 1, F.fin 0, F.fin 1, F.fin 0] mC3bad c 0 = F.nan := by
    intro c
    rw [canvasCostStep]
    simp only [show (0:ℕ) * 2 = 0 from rfl, show (0:ℕ) + 1 = 1 from rfl,
      show geti [F.fin 1, F.fin 0, F.fin 1, F.fin 0] 0 = F.fin 1 from rfl,
      show geti [F.fin 1, F.fin 0, F.fin 1, F.fin 0] 1 = F.fin 0 from rfl,
      F.mul_fin_fin, F.add_fin_fin]
    rw [show ((1:ℝ) * 1 + 0 * 0) = 1 from by norm_num, F.sqrt_fin _ (by norm_num),
      Real.sqrt_one, show mC3bad.canvas_size = 0 from rfl,
      F.div_fin_zero_pos (by norm_num), show mC3bad.canvas_rigidity = 1 from rfl,
      F.powf_inf_pos (by norm_num), show mC3bad.canvas = 0 from rfl, F.mul_zero_inf,
      F.add_nan]
  show (canvasCost g2v.n [F.fin 1, F.fin 0, F.fin 1, F.fin 0] mC3bad
    (if 1 < mC3bad.n_blocks then
      repulseCostBlocked g2v.n [F.fin 1, F.fin 0, F.fin 1, F.fin 0] mC3bad
        (springCost g2v.edges [F.fin 1, F.fin 0, F.fin 1, F.fin 0] mC3bad (F.fin 0))
     else
      repulseCostNaive g2v.n [F.fin 1, F.fin 0, F.fin 1, F.fin 0] mC3bad
        (springCost g2v.edges [F.fin 1, F.fin 0, F.fin 1, F.fin 0] mC3bad
          (F.fin 0)))).isFinite = false
  rw [canvasCost, show List.range g2v.n = [0, 1] from rfl, List.foldl_cons,
    List.foldl_cons, List.foldl_nil, hstep]
  rw [show ∀ v, canvasCostStep [F.fin 1, F.fin 0, F.fin 1, F.fin 0] mC3bad F.nan v =
      F.nan from fun v => by rw [canvasCostStep, F.nan_add]]
  rfl

/-- **C3, amended.** For two coincident points at `(a, b)` on the
builder's two-vertex graph (so with the reciprocal spring edge pair
`(0,1)`, `(1,0)` present and `spring` arbitrary), on the naive path
with `canvas_size > 0` and the position away from the origin (or
rigidity at least 2): each spring edge contributes nothing to the
gradient — the zero-distance guard skips it for any accumulated
gradient vector — the cost is finite, namely
`2 * repulse * softplus(repulse_dist)` (the spring cost terms add
`spring * sqrt(0) = 0`), and the gradient applies exactly the
deterministic superposition fallback
`-repulse * 2 * sigma(repulse_dist) * cos(v1) * 1e-10` /
`-repulse * 2 * sigma(repulse_dist) * sin(v2) * 1e-10` — no NaN. -/
theorem C3_coincident_superposition (a b : ℝ) (m : Model)
    (hc : m.canvas = 0) (hS : 0 < m.canvas_size) (hnb : m.n_blocks ≤ 1)
    (hor : (a, b) ≠ ((0:ℝ), (0:ℝ)) ∨ 2 ≤ m.canvas_rigidity) :
    (∀ gr : List F,
      springGrad gAB.edges [F.fin a, F.fin b, F.fin a, F.fin b] m gr = gr) ∧
    gAB.cost [F.fin a, F.fin b, F.fin a, F.fin b] m =
      F.fin (2 * (m.repulse * Real.log (1 + Real.exp m.repulse_dist))) ∧
    gAB.gradient [F.fin a, F.fin b, F.fin a, F.fin b] m =
      [F.fin (-(m.repulse * 2 * (1 / (1 + Real.exp (-m.repulse_dist))) *
          Real.cos 0 * 1e-10)),
       F.fin (-(m.repulse * 2 * (1 / (1 + Real.exp (-m.repulse_dist))) *
          Real.sin 1 * 1e-10)),
       F.fin (-(m.repulse * 2 * (1 / (1 + Real.exp (-m.repulse_dist))) *
          Real.cos 1 * 1e-10)),
       F.fin (-(m.repulse * 2 * (1 / (1 + Real.exp (-m.repulse_dist))) *
          Real.sin 0 * 1e-10))] := by
  have hspring : ∀ gr : List F,
      springGrad gAB.edges [F.fin a, F.fin b, F.fin a, F.fin b] m gr = gr := by
    intro gr
    rw [springGrad, show gAB.edges = [Edge.mk 0 1, Edge.mk 1 0] from rfl,
      List.foldl_cons, List.foldl_cons, List.foldl_nil,
      springGradStep_coincident [F.fin a, F.fin b, F.fin a, F.fin b] m gr
        (Edge.mk 0 1) a b rfl rfl rfl rfl,
      springGradStep_coincident [F.fin a, F.fin b, F.fin a, F.fin b] m gr
        (Edge.mk 1 0) a b rfl rfl rfl rfl]
  have hsc : springCost gAB.edges [F.fin a, F.fin b, F.fin a, F.fin b] m (F.fin 0) =
      F.fin 0 := by
    rw [springCost, show gAB.edges = [Edge.mk 0 1, Edge.mk 1 0] from rfl,
      List.foldl_cons, List.foldl_cons, List.foldl_nil,
      springCostStep_coincident [F.fin a, F.fin b, F.fin a, F.fin b] m 0
        (Edge.mk 0 1) a b rfl rfl rfl rfl,
      springCostStep_coincident [F.fin a, F.fin b, F.fin a, F.fin b] m 0
        (Edge.mk 1 0) a b rfl rfl rfl rfl]
  have horc : ∀ v, v < gAB.n →
      ∃ aa bb, geti [F.fin a, F.fin b, F.fin a, F.fin b] (v * 2) = F.fin aa ∧
      geti [F.fin a, F.fin b, F.fin a, F.fin b] (v * 2 + 1) = F.fin bb ∧
      (0 < aa * aa + bb * bb ∨ 0 ≤ m.canvas_rigidity) := by
    intro v hv
    have hv2 : v < 2 := hv
    have hw : 0 < a * a + b * b ∨ 0 ≤ m.canvas_rigidity := by
      rcases hor with h | h
      · exact Or.inl (pos_of_ne_origin a b h)
      · exact Or.inr (by linarith)
    interval_cases v
    · exact ⟨a, b, rfl, rfl, hw⟩
    · exact ⟨a, b, rfl, rfl, hw⟩
  have horg : ∀ v, v < gAB.n →
      ∃ aa bb, geti [F.fin a, F.fin b, F.fin a, F.fin b] (v * 2) = F.fin aa ∧
      geti [F.fin a, F.fin b, F.fin a, F.fin b] (v * 2 + 1) = F.fin bb ∧
      (0 < aa * aa + bb * bb ∨ 2 ≤ m.canvas_rigidity) := by
    intro v hv
    have hv2 : v < 2 := hv
    have hw : 0 < a * a + b * b ∨ 2 ≤ m.canvas_rigidity := by
      rcases hor with h | h
      · exact Or.inl (pos_of_ne_origin a b h)
      · exact Or.inr h
    interval_cases v
    · exact ⟨a, b, rfl, rfl, hw⟩
    · exact ⟨a, b, rfl, rfl, hw⟩
  refine ⟨hspring, ?_, ?_⟩
  · show canvasCost gAB.n [F.fin a, F.fin b, F.fin a, F.fin b] m
      (if 1 < m.n_blocks then
        repulseCostBlocked gAB.n [F.fin a, F.fin b, F.fin a, F.fin b] m
          (springCost gAB.edges [F.fin a, F.fin b, F.fin a, F.fin b] m (F.fin 0))
       else
        repulseCostNaive gAB.n [F.fin a, F.fin b, F.fin a, F.fin b] m
          (springCost gAB.edges [F.fin a, F.fin b, F.fin a, F.fin b] m (F.fin 0))) = _
    rw [if_neg (by omega), canvasCost_id _ _ _ _ hc hS horc, hsc]
    rw [repulseCostNaive, show List.range gAB.n = [0, 1] from rfl]
    simp only [List.foldl_cons, List.foldl_nil, repulseCostPairStep]
    rw [if_neg (by norm_num), if_pos (by norm_num : (0:ℕ) ≠ 1),
      if_pos (by norm_num : (1:ℕ) ≠ 0), if_neg (by norm_num)]
    simp only [show geti [F.fin a, F.fin b, F.fin a, F.fin b] (0 * 2) = F.fin a from rfl,
      show geti [F.fin a, F.fin b, F.fin a, F.fin b] (0 * 2 + 1) = F.fin b from rfl,
      show geti [F.fin a, F.fin b, F.fin a, F.fin b] (1 * 2) = F.fin a from rfl,
      show geti [F.fin a, F.fin b, F.fin a, F.fin b] (1 * 2 + 1) = F.fin b from rfl,
      F.sub_fin_fin, sub_self]
    rw [repulse_cost_fin, show ((0:ℝ) * 0 + 0 * 0) = 0 from by norm_num,
      Real.sqrt_zero, sub_zero]
    simp only [F.add_fin_fin]
    exact congrArg F.fin (by ring)
  · show canvasGrad gAB.n [F.fin a, F.fin b, F.fin a, F.fin b] m
      (if 1 < m.n_blocks then
        repulseGradBlocked gAB.n [F.fin a, F.fin b, F.fin a, F.fin b] m
          (springGrad gAB.edges [F.fin a, F.fin b, F.fin a, F.fin b] m
            (List.replicate (gAB.n * 2) (F.fin 0)))
       else
        repulseGradNaive gAB.n [F.fin a, F.fin b, F.fin a, F.fin b] m
          (springGrad gAB.edges [F.fin a, F.fin b, F.fin a, F.fin b] m
            (List.replicate (gAB.n * 2) (F.fin 0)))) = _
    rw [if_neg (by omega), canvasGrad_id _ _ _ _ hc hS horg, hspring]
    rw [show (List.replicate (gAB.n * 2) (F.fin 0) : List F) =
      [F.fin 0, F.fin 0, F.fin 0, F.fin 0] from rfl]
    rw [repulseGradNaive, show List.range gAB.n = [0, 1] from rfl]
    simp only [List.foldl_cons, List.foldl_nil, repulseGradPairStep]
    rw [if_neg (by norm_num), if_pos (by norm_num : (0:ℕ) ≠ 1),
      if_pos (by norm_num : (1:ℕ) ≠ 0), if_neg (by norm_num)]
    simp only [show geti [F.fin a, F.fin b, F.fin a, F.fin b] (0 * 2) = F.fin a from rfl,
      show geti [F.fin a, F.fin b, F.fin a, F.fin b] (0 * 2 + 1) = F.fin b from rfl,
      show geti [F.fin a, F.fin b, F.fin a, F.fin b] (1 * 2) = F.fin a from rfl,
      show geti [F.fin a, F.fin b, F.fin a, F.fin b] (1 * 2 + 1) = F.fin b from rfl,
      F.sub_fin_fin, sub_self]
    rw [repulse_grad_coincident, repulse_grad_coincident]
    simp only [show (0:ℕ) * 2 = 0 from rfl, show (0:ℕ) + 1 = 1 from rfl,
      show (1:ℕ) * 2 = 2 from rfl, show (2:ℕ) + 1 = 3 from rfl]
    simp only [gsub4_0, gsub4_1, gsub4_2, gsub4_3, F.sub_fin_fin]
    simp only [List.cons.injEq, F.fin.injEq, and_true, Nat.cast_zero, Nat.cast_one]
    refine ⟨?_, ?_, ?_, ?_⟩ <;> ring

/-- The model used to instantiate the amended C3. -/
def mC3 : Model :=
  { spring := 0, repulse := 1, repulse_dist := 1, repulse_rigidity := 0,
    canvas := 0, canvas_size := 1, canvas_rigidity := 2, n_blocks := 1 }

theorem C3_witness :
    (0:ℝ) < mC3.canvas_size ∧
    (springGrad gAB.edges [F.fin 1, F.fin 0, F.fin 1, F.fin 0] mC3
        [F.fin 5, F.nan, F.inf, F.fin 7] = [F.fin 5, F.nan, F.inf, F.fin 7] ∧
      gAB.cost [F.fin 1, F.fin 0, F.fin 1, F.fin 0] mC3 =
        F.fin (2 * (mC3.repulse * Real.log (1 + Real.exp mC3.repulse_dist))) ∧
      gAB.gradient [F.fin 1, F.fin 0, F.fin 1, F.fin 0] mC3 =
        [F.fin (-(mC3.repulse * 2 * (1 / (1 + Real.exp (-mC3.repulse_dist))) *
            Real.cos 0 * 1e-10)),
         F.fin (-(mC3.repulse * 2 * (1 / (1 + Real.exp (-mC3.repulse_dist))) *
            Real.sin 1 * 1e-10)),
         F.fin (-(mC3.repulse * 2 * (1 / (1 + Real.exp (-mC3.repulse_dist))) *
            Real.cos 1 * 1e-10)),
         F.fin (-(mC3.repulse * 2 * (1 / (1 + Real.exp (-mC3.repulse_dist))) *
            Real.sin 0 * 1e-10))]) :=
  ⟨by norm_num [mC3],
    (C3_coincident_superposition 1 0 mC3 rfl (by norm_num [mC3]) (by norm_num [mC3])
      (Or.inl (by norm_num [Prod.ext_iff]))).1 [F.fin 5, F.nan, F.inf, F.fin 7],
    (C3_coincident_superposition 1 0 mC3 rfl (by norm_num [mC3]) (by norm_num [mC3])
      (Or.inl (by norm_num [Prod.ext_iff]))).2⟩

/-! ### C7: zero cost with zero coefficients -/

/-- The one-vertex, zero-edge graph. -/
def g1v : Graph := (Graph.new.add_vertex "A").1

/-- A model with `repulse = 0` and `canvas = 0` but `canvas_size = 0`
(the "other fields arbitrary" reading of C7). -/
def mC7bad : Model :=
  { spring := 0, repulse := 0, repulse_dist := 0, repulse_rigidity := 0,
    canvas := 0, canvas_size := 0, canvas_rigidity := 1, n_blocks := 1 }

/-- **C7, counterexample.** A zero-edge graph with `repulse = 0` and
`canvas = 0` but `canvas_size = 0`: at a vertex away from the origin
the canvas term is `0 * (d/0)^1 = 0 * inf = NaN`, so the cost is NaN,
not `0`; the claim's "other fields arbitrary" fails. -/
theorem C7_counterexample :
    g1v.cost [F.fin 1, F.fin 0] mC7bad ≠ F.fin 0 := by
  have hstep : ∀ c : F, canvasCostStep [F.fin 1, F.fin 0] mC7bad c 0 = F.nan := by
    intro c
    rw [canvasCostStep]
    simp only [show (0:ℕ) * 2 = 0 from rfl, show (0:ℕ) + 1 = 1 from rfl,
      show geti [F.fin 1, F.fin 0] 0 = F.fin 1 from rfl,
      show geti [F.fin 1, F.fin 0] 1 = F.fin 0 from rfl,
      F.mul_fin_fin, F.add_fin_fin]
    rw [show ((1:ℝ) * 1 + 0 * 0) = 1 from by norm_num, F.sqrt_fin _ (by norm_num),
      Real.sqrt_one, show mC7bad.canvas_size = 0 from rfl,
      F.div_fin_zero_pos (by norm_num), show mC7bad.canvas_rigidity = 1 from rfl,
      F.powf_inf_pos (by norm_num), show mC7bad.canvas = 0 from rfl, F.mul_zero_inf,
      F.add_nan]
  have hval : g1v.cost [F.fin 1, F.fin 0] mC7bad = F.nan := by
    show canvasCost g1v.n [F.fin 1, F.fin 0] mC7bad
      (if 1 < mC7bad.n_blocks then
        repulseCostBlocked g1v.n [F.fin 1, F.fin 0] mC7bad
          (springCost g1v.edges [F.fin 1, F.fin 0] mC7bad (F.fin 0))
       else
        repulseCostNaive g1v.n [F.fin 1, F.fin 0] mC7bad
          (springCost g1v.edges [F.fin 1, F.fin 0] mC7bad (F.fin 0))) = F.nan
    rw [show (if 1 < mC7bad.n_blocks then
        repulseCostBlocked g1v.n [F.fin 1, F.fin 0] mC7bad
          (springCost g1v.edges [F.fin 1, F.fin 0] mC7bad (F.fin 0))
       else
        repulseCostNaive g1v.n [F.fin 1, F.fin 0] mC7bad
          (springCost g1v.edges [F.fin 1, F.fin 0] mC7bad (F.fin 0))) = F.fin 0 from rfl]
    rw [canvasCost, show List.range g1v.n = [0] from rfl, List.foldl_cons,
      List.foldl_nil, hstep]
  rw [hval]
  exact fun h => F.noConfusion h

/-- **C7, amended.** For every graph with zero edges, every position
vector with finite coordinates at all vertex slots, and every model
with `repulse = 0`, `canvas = 0`, `canvas_size > 0` and
`canvas_rigidity ≥ 0` (other fields arbitrary, both enumeration
paths), the cost is exactly `0`. -/
theorem C7_zero_cost (g : Graph) (loc : List F) (m : Model)
    (hedges : g.edges = []) (hr : m.repulse = 0) (hc : m.canvas = 0)
    (hS : 0 < m.canvas_size) (hrig : 0 ≤ m.canvas_rigidity)
    (hfin : ∀ v, v < g.n → (geti loc (v * 2)).isFinite = true ∧
      (geti loc (v * 2 + 1)).isFinite = true) :
    g.cost loc m = F.fin 0 := by
  have hcanv : ∀ v, v < g.n → ∃ aa bb, geti loc (v * 2) = F.fin aa ∧
      geti loc (v * 2 + 1) = F.fin bb ∧
      (0 < aa * aa + bb * bb ∨ 0 ≤ m.canvas_rigidity) := by
    intro v hv
    obtain ⟨a, ha⟩ := F.eq_fin_of_isFinite (hfin v hv).1
    obtain ⟨b, hb⟩ := F.eq_fin_of_isFinite (hfin v hv).2
    exact ⟨a, b, ha, hb, Or.inr hrig⟩
  show canvasCost g.n loc m
    (if 1 < m.n_blocks then
      repulseCostBlocked g.n loc m (springCost g.edges loc m (F.fin 0))
     else
      repulseCostNaive g.n loc m (springCost g.edges loc m (F.fin 0))) = F.fin 0
  rw [hedges, show springCost [] loc m (F.fin 0) = F.fin 0 from rfl]
  rcases lt_or_ge 1 m.n_blocks with h | h
  · rw [if_pos h, repulseCostBlocked_id _ _ _ _ hr hfin,
      canvasCost_id _ _ _ _ hc hS hcanv]
  · rw [if_neg (not_lt.mpr h), repulseCostNaive_id _ _ _ _ hr hfin,
      canvasCost_id _ _ _ _ hc hS hcanv]

/-- The benign model used to instantiate the amended C7, with the
blocked path enabled (`n_blocks = 5`). -/
def mC7 : Model :=
  { spring := 5, repulse := 0, repulse_dist := 7, repulse_rigidity := 3,
    canvas := 0, canvas_size := 1, canvas_rigidity := 0, n_blocks := 5 }

theorem C7_witness :
    g2v.edges = [] ∧ (0:ℝ) < mC7.canvas_size ∧
    g2v.cost [F.fin 1, F.fin 0, F.fin 2, F.fin 3] mC7 = F.fin 0 :=
  ⟨rfl, by norm_num [mC7],
    C7_zero_cost g2v [F.fin 1, F.fin 0, F.fin 2, F.fin 3] mC7 rfl rfl rfl
      (by norm_num [mC7]) (by norm_num [mC7])
      (by
        intro v hv
        have hv2 : v < 2 := hv
        interval_cases v
        · exact ⟨rfl, rfl⟩
        · exact ⟨rfl, rfl⟩)⟩

/-! ### C5: non-finite coordinates -/

/-- A model with `canvas_rigidity = 0`: IEEE `pow(NaN, 0) = 1` makes
the canvas term of a NaN-coordinate vertex finite. -/
def mC5bad : Model :=
  { spring := 1, repulse := 0, repulse_dist := 0, repulse_rigidity := 0,
    canvas := 1, canvas_size := 1, canvas_rigidity := 0, n_blocks := 1 }

/-- **C5, counterexample.** A single vertex with a NaN coordinate on
the naive path, with `canvas_rigidity = 0`: the canvas term is
`1 * (NaN/1)^0 = 1` (IEEE `pow(NaN, 0) = 1`), no repulsion pair and no
edge exists, so the cost is the finite value `1` — not non-finite as
the claim states. -/
theorem C5_counterexample :
    (g1v.cost [F.nan, F.fin 0] mC5bad).isFinite = true := by
  have hstep : canvasCostStep [F.nan, F.fin 0] mC5bad (F.fin 0) 0 = F.fin 1 := by
    rw [canvasCostStep]
    simp only [show (0:ℕ) * 2 = 0 from rfl, show (0:ℕ) + 1 = 1 from rfl,
      show geti [F.nan, F.fin 0] 0 = F.nan from rfl,
      show geti [F.nan, F.fin 0] 1 = F.fin 0 from rfl]
    rw [show (F.nan.mul F.nan).add ((F.fin (0:ℝ)).mul (F.fin 0)) = F.nan from rfl,
      show F.nan.sqrt = F.nan from rfl,
      show F.nan.div (F.fin mC5bad.canvas_size) = F.nan from rfl,
      show mC5bad.canvas_rigidity = 0 from rfl]
    rw [show F.nan.powf (F.fin 0) = (if (0:ℝ) = 0 then F.fin 1 else F.nan) from by
      simp only [F.powf]]
    rw [if_pos rfl, show mC5bad.canvas = 1 from rfl, F.mul_fin_fin, F.add_fin_fin]
    norm_num
  show (canvasCost g1v.n [F.nan, F.fin 0] mC5bad
    (if 1 < mC5bad.n_blocks then
      repulseCostBlocked g1v.n [F.nan, F.fin 0] mC5bad
        (springCost g1v.edges [F.nan, F.fin 0] mC5bad (F.fin 0))
     else
      repulseCostNaive g1v.n [F.nan, F.fin 0] mC5bad
        (springCost g1v.edges [F.nan, F.fin 0] mC5bad (F.fin 0)))).isFinite = true
  rw [show (if 1 < mC5bad.n_blocks then
      repulseCostBlocked g1v.n [F.nan, F.fin 0] mC5bad
        (springCost g1v.edges [F.nan, F.fin 0] mC5bad (F.fin 0))
     else
      repulseCostNaive g1v.n [F.nan, F.fin 0] mC5bad
        (springCost g1v.edges [F.nan, F.fin 0] mC5bad (F.fin 0))) = F.fin 0 from rfl]
  rw [canvasCost, show List.range g1v.n = [0] from rfl, List.foldl_cons,
    List.foldl_nil, hstep]
  rfl

/-- **C5, amended.** Non-finite positions are excluded from blocking
(never bucketed; `nearby` of a non-finite query is empty) but not from
the other sums; for every graph and `loc` in which some vertex has a
non-finite coordinate, on the naive path (`n_blocks ≤ 1`) and with
`canvas_rigidity > 0`, the cost is non-finite. -/
theorem C5_nonfinite_propagation :
    (∀ (bl : Blocking) (x y : F),
      x.isFinite = false ∨ y.isFinite = false → bl.nearby x y = []) ∧
    (∀ (xs : List F) (nb i j : ℕ), ∀ e ∈ bget (Blocking.create xs nb).blocks i j,
      e.2.1.isFinite = true ∧ e.2.2.isFinite = true) ∧
    (∀ (g : Graph) (loc : List F) (m : Model), m.n_blocks ≤ 1 →
      0 < m.canvas_rigidity →
      (∃ v, v < g.n ∧ ((geti loc (v * 2)).isFinite = false ∨
        (geti loc (v * 2 + 1)).isFinite = false)) →
      (g.cost loc m).isFinite = false) := by
  refine ⟨?_, ?_, ?_⟩
  · intro bl x y h
    rw [Blocking.nearby, if_neg]
    rcases h with h | h <;> simp [h]
  · intro xs nb i j e he
    exact ⟨(create_entries xs nb i j e he).2.2.1, (create_entries xs nb i j e he).2.2.2.1⟩
  · rintro g loc m hnb hrig ⟨v, hv, hnf⟩
    show (canvasCost g.n loc m
      (if 1 < m.n_blocks then
        repulseCostBlocked g.n loc m (springCost g.edges loc m (F.fin 0))
       else
        repulseCostNaive g.n loc m (springCost g.edges loc m (F.fin 0)))).isFinite = false
    rw [canvasCost]
    exact foldl_hit_nonfinite _ _ _ v (List.mem_range.mpr hv)
      (canvasCostStep_nonfinite loc m v hrig hnf)
      (fun c x _ hc => F.add_nonfinite_left _ hc)

/-- The naive-path model used to instantiate the amended C5. -/
def mC5 : Model :=
  { spring := 0, repulse := 0, repulse_dist := 0, repulse_rigidity := 0,
    canvas := 0, canvas_size := 1, canvas_rigidity := 1, n_blocks := 0 }

theorem C5_witness :
    mC5.n_blocks ≤ 1 ∧ (0:ℝ) < mC5.canvas_rigidity ∧
    ((Blocking.create [F.fin 1] 3).nearby F.inf (F.fin 0) = [] ∧
      (g1v.cost [F.nan, F.fin 0] mC5).isFinite = false) :=
  ⟨by norm_num [mC5], by norm_num [mC5],
    C5_nonfinite_propagation.1 _ _ _ (Or.inl rfl),
    C5_nonfinite_propagation.2.2 g1v [F.nan, F.fin 0] mC5 (by norm_num [mC5])
      (by norm_num [mC5]) ⟨0, by norm_num [g1v, Graph.new, Graph.add_vertex], Or.inl rfl⟩⟩

/-! ### The blocking grid: bounds and bucket membership -/

theorem maxAbs_fold_mono (xs : List F) : ∀ m0 : ℝ,
    m0 ≤ xs.foldl (fun mx x =>
      match x with
      | F.fin a => if mx < |a| then |a| else mx
      | _ => mx) m0 := by
  induction xs with
  | nil => intro m0; exact le_refl m0
  | cons hd tl ih =>
      intro m0
      rw [List.foldl_cons]
      refine le_trans ?_ (ih _)
      cases hd
      case fin a =>
        dsimp only
        split
        · exact le_of_lt (by assumption)
        · exact le_refl m0
      all_goals exact le_refl m0

theorem maxAbs_fold_bound (xs : List F) : ∀ (m0 a : ℝ), F.fin a ∈ xs →
    |a| ≤ xs.foldl (fun mx x =>
      match x with
      | F.fin a => if mx < |a| then |a| else mx
      | _ => mx) m0 := by
  induction xs with
  | nil => intro m0 a ha; exact absurd ha (List.not_mem_nil _)
  | cons hd tl ih =>
      intro m0 a ha
      rw [List.foldl_cons]
      rcases List.mem_cons.mp ha with h | h
      · subst h
        refine le_trans ?_ (maxAbs_fold_mono tl _)
        dsimp only
        split
        · exact le_refl _
        · exact not_lt.mp (by assumption)
      · exact ih _ a h

theorem maxAbs_fold_attain (xs : List F) : ∀ m0 : ℝ,
    xs.foldl (fun mx x =>
      match x with
      | F.fin a => if mx < |a| then |a| else mx
      | _ => mx) m0 = m0 ∨
    ∃ a : ℝ, F.fin a ∈ xs ∧ xs.foldl (fun mx x =>
      match x with
      | F.fin a => if mx < |a| then |a| else mx
      | _ => mx) m0 = |a| := by
  induction xs with
  | nil => intro m0; exact Or.inl rfl
  | cons hd tl ih =>
      intro m0
      rw [List.foldl_cons]
      cases hd
      case fin a =>
        dsimp only
        rcases ih (if m0 < |a| then |a| else m0) with h | ⟨b, hb, he⟩
        · rw [h]
          split
          · exact Or.inr ⟨a, List.mem_cons_self _ _, rfl⟩
          · exact Or.inl rfl
        · exact Or.inr ⟨b, List.mem_cons_of_mem _ hb, he⟩
      all_goals
        rcases ih m0 with h | ⟨b, hb, he⟩
        · exact Or.inl h
        · exact Or.inr ⟨b, List.mem_cons_of_mem _ hb, he⟩

theorem maxAbsFinite_nonneg (xs : List F) : 0 ≤ maxAbsFinite xs :=
  maxAbs_fold_mono xs 0

theorem maxAbsFinite_bound (xs : List F) {a : ℝ} (ha : F.fin a ∈ xs) :
    |a| ≤ maxAbsFinite xs :=
  maxAbs_fold_bound xs 0 a ha

theorem maxAbsFinite_attain (xs : List F) :
    maxAbsFinite xs = 0 ∨ ∃ a : ℝ, F.fin a ∈ xs ∧ maxAbsFinite xs = |a| :=
  maxAbs_fold_attain xs 0

theorem geti_mem (xs : List F) {k : ℕ} (h : k < xs.length) : geti xs k ∈ xs := by
  rw [geti, List.getD_eq_getElem _ _ h]
  exact List.getElem_mem h

/-- The `block_size` stored by `create` for `n_blocks ≥ 1`. -/
theorem block_size_eq (xs : List F) (nb : ℕ) (hn : 1 ≤ nb) :
    (Blocking.create xs nb).block_size =
      F.fin (maxAbsFinite xs * 1.01 * 2 / nb) := by
  show (F.fin (maxAbsFinite xs * 1.01 * 2)).div (F.fin (nb : ℝ)) = _
  rw [F.div_fin_fin _ _ (by
    exact_mod_cast (Nat.cast_ne_zero.mpr (by omega) : ((nb:ℕ) : ℝ) ≠ 0))]

/-- With a positive largest coordinate, the cell index is the
(saturated) `Nat`-floor of `(a + max) / block_size`, whose floor lies
below `n_blocks`. -/
theorem cellIdx_pos_core (xs : List F) (nb : ℕ) (hn : 1 ≤ nb)
    (hmax : 0 < maxAbsFinite xs) {a : ℝ} (hbound : |a| ≤ maxAbsFinite xs) :
    cellIdx (F.fin a) (maxAbsFinite xs * 1.01) ((Blocking.create xs nb).block_size) =
      min (Nat.floor ((a + maxAbsFinite xs * 1.01) /
        (2 * (maxAbsFinite xs * 1.01) / nb))) (2 ^ 64 - 1) ∧
    Nat.floor ((a + maxAbsFinite xs * 1.01) / (2 * (maxAbsFinite xs * 1.01) / nb)) < nb := by
  have hnr : (0:ℝ) < nb := Nat.cast_pos.mpr (by omega)
  have hmx : 0 < maxAbsFinite xs * 1.01 := by nlinarith
  have hbs : 0 < maxAbsFinite xs * 1.01 * 2 / nb := by positivity
  have habs := abs_le.mp hbound
  have hub : a + maxAbsFinite xs * 1.01 < 2 * (maxAbsFinite xs * 1.01) := by nlinarith
  have hlb : 0 < a + maxAbsFinite xs * 1.01 := by nlinarith
  have hbseq : maxAbsFinite xs * 1.01 * 2 / nb = 2 * (maxAbsFinite xs * 1.01) / nb := by
    ring
  have hratio : 0 ≤ (a + maxAbsFinite xs * 1.01) / (2 * (maxAbsFinite xs * 1.01) / nb) :=
    le_of_lt (div_pos hlb (by positivity))
  have hlt : (a + maxAbsFinite xs * 1.01) / (2 * (maxAbsFinite xs * 1.01) / nb) <
      (nb : ℝ) := by
    rw [div_lt_iff₀ (by positivity)]
    have hcl : (nb:ℝ) * (2 * (maxAbsFinite xs * 1.01) / nb) =
        2 * (maxAbsFinite xs * 1.01) := by
      field_simp
    rw [hcl]
    exact hub
  have hfl : Nat.floor ((a + maxAbsFinite xs * 1.01) /
      (2 * (maxAbsFinite xs * 1.01) / nb)) < nb := by
    have := (Nat.floor_lt hratio).mpr (by exact_mod_cast hlt)
    exact_mod_cast this
  refine ⟨?_, hfl⟩
  rw [cellIdx, block_size_eq xs nb hn, hbseq]
  simp only [F.add_fin_fin]
  rw [F.div_fin_fin _ _ (by positivity : (2 * (maxAbsFinite xs * 1.01) / (nb:ℝ)) ≠ 0)]
  rfl

/-- With a positive largest coordinate and `n_blocks` in the `usize`
range, the cell index is exactly the `Nat`-floor of
`(a + max) / block_size`, which lies below `n_blocks`. -/
theorem cellIdx_eq_floor (xs : List F) (nb : ℕ) (hn : 1 ≤ nb) (hn64 : nb ≤ 2 ^ 64)
    (hmax : 0 < maxAbsFinite xs) {a : ℝ} (hbound : |a| ≤ maxAbsFinite xs) :
    cellIdx (F.fin a) (maxAbsFinite xs * 1.01) ((Blocking.create xs nb).block_size) =
      Nat.floor ((a + maxAbsFinite xs * 1.01) /
        (2 * (maxAbsFinite xs * 1.01) / nb)) ∧
    Nat.floor ((a + maxAbsFinite xs * 1.01) / (2 * (maxAbsFinite xs * 1.01) / nb)) < nb := by
  obtain ⟨h1, h2⟩ := cellIdx_pos_core xs nb hn hmax hbound
  exact ⟨by rw [h1]; exact min_eq_left (by omega), h2⟩

/-- In the degenerate all-zero build the block size is zero, the
cell-index expression is NaN, and the saturating cast sends it to
cell 0. -/
theorem cellIdx_degenerate (xs : List F) (nb : ℕ) (hn : 1 ≤ nb)
    (hmax : maxAbsFinite xs = 0) {a : ℝ} (ha : F.fin a ∈ xs) :
    (Blocking.create xs nb).block_size = F.fin 0 ∧
    ((F.fin a).add (F.fin (maxAbsFinite xs * 1.01))).div
      ((Blocking.create xs nb).block_size) = F.nan ∧
    cellIdx (F.fin a) (maxAbsFinite xs * 1.01) ((Blocking.create xs nb).block_size) = 0 := by
  have ha0 : a = 0 := by
    have h1 := maxAbsFinite_bound xs ha
    rw [hmax] at h1
    exact abs_eq_zero.mp (le_antisymm h1 (abs_nonneg a))
  have hbs : (Blocking.create xs nb).block_size = F.fin 0 := by
    rw [block_size_eq xs nb hn, hmax]
    norm_num
  refine ⟨hbs, ?_, ?_⟩
  · rw [hbs, ha0, hmax, F.add_fin_fin]
    norm_num
    rw [F.div, if_pos rfl, if_neg (lt_irrefl 0), if_neg (lt_irrefl 0)]
  · rw [cellIdx, hbs, ha0, hmax, F.add_fin_fin]
    norm_num
    rw [F.div, if_pos rfl, if_neg (lt_irrefl 0), if_neg (lt_irrefl 0)]
    rfl

/-- The cell index of any finite entry of the build is below
`n_blocks`. -/
theorem cellIdx_lt (xs : List F) (nb : ℕ) (hn : 1 ≤ nb) {a : ℝ} (ha : F.fin a ∈ xs) :
    cellIdx (F.fin a) (maxAbsFinite xs * 1.01)
      ((Blocking.create xs nb).block_size) < nb := by
  rcases eq_or_lt_of_le (maxAbsFinite_nonneg xs) with h0 | h0
  · rw [(cellIdx_degenerate xs nb hn h0.symm ha).2.2]
    omega
  · rw [(cellIdx_pos_core xs nb hn h0 (maxAbsFinite_bound xs ha)).1]
    have := (cellIdx_pos_core xs nb hn h0 (maxAbsFinite_bound xs ha)).2
    omega

theorem bget_bset_self (b : List (List (List (ℕ × F × F)))) (x y : ℕ)
    (v : List (ℕ × F × F)) (hx : x < b.length) (hy : y < (b.getD x []).length) :
    bget (bset b x y v) x y = v := by
  rw [bget, bset, getD_set_self _ _ _ hx, getD_set_self _ _ _ hy]

theorem bget_bset_ne (b : List (List (List (ℕ × F × F)))) (x y p q : ℕ)
    (v : List (ℕ × F × F)) (h : p ≠ x ∨ q ≠ y) :
    bget (bset b x y v) p q = bget b p q := by
  rcases eq_or_ne p x with rfl | hp
  · rcases h with h | h
    · exact absurd rfl h
    · rw [bget, bset]
      rcases lt_or_ge p b.length with hlen | hlen
      · rw [getD_set_self _ _ _ hlen, getD_set_ne _ _ _ h, bget]
      · rw [List.set_eq_of_length_le hlen, bget]
  · rw [bget, bset, getD_set_ne _ _ _ hp, bget]

/-- Appending to one bucket preserves all existing bucket
membership. -/
theorem bget_bset_append (b : List (List (List (ℕ × F × F)))) (x y p q : ℕ)
    (e' : ℕ × F × F) (e : ℕ × F × F) (he : e ∈ bget b p q) :
    e ∈ bget (bset b x y (bget b x y ++ [e'])) p q := by
  rcases eq_or_ne p x with rfl | hp
  · rcases eq_or_ne q y with rfl | hq
    · rcases lt_or_ge p b.length with hx | hx
      · rcases lt_or_ge q (b.getD p []).length with hy | hy
        · rw [bget_bset_self _ _ _ _ hx hy]
          exact List.mem_append_left _ he
        · have hrow : (b.getD p []).set q (bget b p q ++ [e']) = b.getD p [] :=
            List.set_eq_of_length_le hy
          rw [bset, hrow, set_getD_self]
          exact he
      · rw [bset, List.set_eq_of_length_le hx]
        exact he
    · rw [bget_bset_ne _ _ _ _ _ _ (Or.inr hq)]
      exact he
  · rw [bget_bset_ne _ _ _ _ _ _ (Or.inl hp)]
    exact he

/-- The shape invariant of the grid: `n_blocks` rows of `n_blocks`
buckets. -/
def GridShape (nb : ℕ) (b : List (List (List (ℕ × F × F)))) : Prop :=
  b.length = nb ∧ ∀ j, j < nb → (b.getD j []).length = nb

theorem gridShape_init (nb : ℕ) :
    GridShape nb (List.replicate nb (List.replicate nb ([] : List (ℕ × F × F)))) := by
  refine ⟨List.length_replicate _ _, fun j hj => ?_⟩
  rw [getD_replicate, if_pos hj, List.length_replicate]

theorem gridShape_bset (nb : ℕ) (b : List (List (List (ℕ × F × F)))) (x y : ℕ)
    (v : List (ℕ × F × F)) (hb : GridShape nb b) : GridShape nb (bset b x y v) := by
  refine ⟨by rw [bset, List.length_set]; exact hb.1, fun j hj => ?_⟩
  rw [bset]
  rcases eq_or_ne j x with rfl | hj2
  · rcases lt_or_ge j b.length with hlen | hlen
    · rw [getD_set_self _ _ _ hlen, List.length_set]
      exact hb.2 j hj
    · rw [List.set_eq_of_length_le hlen]
      exact hb.2 j hj
  · rw [getD_set_ne _ _ _ hj2]
    exact hb.2 j hj

/-- Bucket membership is preserved by the remaining iterations of the
`create` bucketing fold. -/
theorem createFold_mem_preserved (xs : List F) (mx : ℝ) (bs : F) :
    ∀ (l : List ℕ) (b : List (List (List (ℕ × F × F)))) (p q : ℕ) (e : ℕ × F × F),
    e ∈ bget b p q →
    e ∈ bget (l.foldl (fun b i =>
      if (geti xs (i * 2)).isFinite && (geti xs (i * 2 + 1)).isFinite then
        bset b (cellIdx (geti xs (i * 2)) mx bs) (cellIdx (geti xs (i * 2 + 1)) mx bs)
          (bget b (cellIdx (geti xs (i * 2)) mx bs)
            (cellIdx (geti xs (i * 2 + 1)) mx bs) ++
            [(i, geti xs (i * 2), geti xs (i * 2 + 1))])
      else b) b) p q := by
  intro l
  induction l with
  | nil => intro b p q e he; exact he
  | cons hd tl ih =>
      intro b p q e he
      rw [List.foldl_cons]
      refine ih _ p q e ?_
      dsimp only
      split
      · exact bget_bset_append _ _ _ _ _ _ _ he
      · exact he

theorem createFold_gridShape (xs : List F) (mx : ℝ) (bs : F) (nb : ℕ) :
    ∀ (l : List ℕ) (b : List (List (List (ℕ × F × F)))), GridShape nb b →
    GridShape nb (l.foldl (fun b i =>
      if (geti xs (i * 2)).isFinite && (geti xs (i * 2 + 1)).isFinite then
        bset b (cellIdx (geti xs (i * 2)) mx bs) (cellIdx (geti xs (i * 2 + 1)) mx bs)
          (bget b (cellIdx (geti xs (i * 2)) mx bs)
            (cellIdx (geti xs (i * 2 + 1)) mx bs) ++
            [(i, geti xs (i * 2), geti xs (i * 2 + 1))])
      else b) b) := by
  intro l
  induction l with
  | nil => intro b hb; exact hb
  | cons hd tl ih =>
      intro b hb
      rw [List.foldl_cons]
      refine ih _ ?_
      dsimp only
      split
      · exact gridShape_bset _ _ _ _ _ hb
      · exact hb

/-- The bucketing fold places every position with two finite
coordinates (and in-bounds cell indices) into its cell. -/
theorem createFold_mem (xs : List F) (mx : ℝ) (bs : F) (nb : ℕ) :
    ∀ (l : List ℕ) (b : List (List (List (ℕ × F × F)))) (i : ℕ), i ∈ l →
    GridShape nb b →
    (geti xs (i * 2)).isFinite = true → (geti xs (i * 2 + 1)).isFinite = true →
    cellIdx (geti xs (i * 2)) mx bs < nb → cellIdx (geti xs (i * 2 + 1)) mx bs < nb →
    (i, geti xs (i * 2), geti xs (i * 2 + 1)) ∈
      bget (l.foldl (fun b i =>
        if (geti xs (i * 2)).isFinite && (geti xs (i * 2 + 1)).isFinite then
          bset b (cellIdx (geti xs (i * 2)) mx bs) (cellIdx (geti xs (i * 2 + 1)) mx bs)
            (bget b (cellIdx (geti xs (i * 2)) mx bs)
              (cellIdx (geti xs (i * 2 + 1)) mx bs) ++
              [(i, geti xs (i * 2), geti xs (i * 2 + 1))])
        else b) b)
        (cellIdx (geti xs (i * 2)) mx bs) (cellIdx (geti xs (i * 2 + 1)) mx bs) := by
  intro l
  induction l with
  | nil => intro b i hi; exact absurd hi (List.not_mem_nil _)
  | cons hd tl ih =>
      intro b i hi hb hxf hyf hcx hcy
      rw [List.foldl_cons]
      rcases List.mem_cons.mp hi with h | h
      · subst h
        refine createFold_mem_preserved xs mx bs tl _ _ _ _ ?_
        dsimp only
        rw [if_pos (by rw [hxf, hyf]; rfl)]
        rw [bget_bset_self _ _ _ _ (by rw [hb.1]; exact hcx)
          (by rw [hb.2 _ hcx]; exact hcy)]
        exact List.mem_append_right _ (List.mem_singleton.mpr rfl)
      · exact ih _ i h (by
          split
          · exact gridShape_bset _ _ _ _ _ hb
          · exact hb) hxf hyf hcx hcy

/-- `Blocking::create` buckets every doubly-finite position at its
cell index pair. -/
theorem create_mem (xs : List F) (nb : ℕ) (i : ℕ) (hi : i < xs.length / 2)
    (hxf : (geti xs (i * 2)).isFinite = true)
    (hyf : (geti xs (i * 2 + 1)).isFinite = true)
    (hcx : cellIdx (geti xs (i * 2)) (maxAbsFinite xs * 1.01)
      ((Blocking.create xs nb).block_size) < nb)
    (hcy : cellIdx (geti xs (i * 2 + 1)) (maxAbsFinite xs * 1.01)
      ((Blocking.create xs nb).block_size) < nb) :
    (i, geti xs (i * 2), geti xs (i * 2 + 1)) ∈
      bget (Blocking.create xs nb).blocks
        (cellIdx (geti xs (i * 2)) (maxAbsFinite xs * 1.01)
          ((Blocking.create xs nb).block_size))
        (cellIdx (geti xs (i * 2 + 1)) (maxAbsFinite xs * 1.01)
          ((Blocking.create xs nb).block_size)) :=
  createFold_mem xs (maxAbsFinite xs * 1.01) ((Blocking.create xs nb).block_size) nb
    (List.range (xs.length / 2)) _ i (List.mem_range.mpr hi) (gridShape_init nb)
    hxf hyf hcx hcy

/-! ### C4: what `Blocking::create` computes -/

/-- **C4.** `Blocking::create(loc, n_blocks)` computes `max` as 1.01
times the largest finite absolute coordinate in `loc` (largest in the
sense that it bounds every finite coordinate and is attained unless
zero), `block_size` as `2*max/n_blocks`; it buckets every position
with two finite coordinates into the cell
`(⌊(x+max)/block_size⌋, ⌊(y+max)/block_size⌋)` (stated for a positive
`max`, where the cast of the floor is exact), and it skips every
position with a non-finite coordinate entirely: its index appears in
no bucket. -/
theorem C4_blocking_create (xs : List F) (nb : ℕ) (hn : 1 ≤ nb) (hn64 : nb ≤ 2 ^ 64) :
    ((Blocking.create xs nb).max = maxAbsFinite xs * 1.01 ∧
      (∀ x ∈ xs, ∀ a : ℝ, x = F.fin a → |a| ≤ maxAbsFinite xs) ∧
      (maxAbsFinite xs = 0 ∨ ∃ a : ℝ, F.fin a ∈ xs ∧ maxAbsFinite xs = |a|) ∧
      (Blocking.create xs nb).block_size =
        F.fin (2 * (Blocking.create xs nb).max / nb)) ∧
    (∀ i, i < xs.length / 2 → 0 < maxAbsFinite xs →
      ∀ a b : ℝ, geti xs (i * 2) = F.fin a → geti xs (i * 2 + 1) = F.fin b →
      (i, geti xs (i * 2), geti xs (i * 2 + 1)) ∈
        bget (Blocking.create xs nb).blocks
          (Nat.floor ((a + maxAbsFinite xs * 1.01) /
            (2 * (maxAbsFinite xs * 1.01) / nb)))
          (Nat.floor ((b + maxAbsFinite xs * 1.01) /
            (2 * (maxAbsFinite xs * 1.01) / nb)))) ∧
    (∀ i, i < xs.length / 2 →
      (geti xs (i * 2)).isFinite = false ∨ (geti xs (i * 2 + 1)).isFinite = false →
      ∀ p q, ∀ e ∈ bget (Blocking.create xs nb).blocks p q, e.1 ≠ i) := by
  refine ⟨⟨rfl, ?_, maxAbsFinite_attain xs, ?_⟩, ?_, ?_⟩
  · intro x hx a ha
    subst ha
    exact maxAbsFinite_bound xs hx
  · rw [block_size_eq xs nb hn]
    show F.fin (maxAbsFinite xs * 1.01 * 2 / nb) =
      F.fin (2 * (maxAbsFinite xs * 1.01) / nb)
    exact congrArg F.fin (by ring)
  · intro i hi hmax a b ha hb
    have h2i : i * 2 < xs.length := by omega
    have h2i1 : i * 2 + 1 < xs.length := by omega
    have hamem : F.fin a ∈ xs := ha ▸ geti_mem xs h2i
    have hbmem : F.fin b ∈ xs := hb ▸ geti_mem xs h2i1
    have hax := cellIdx_eq_floor xs nb hn hn64 hmax (maxAbsFinite_bound xs hamem)
    have hbx := cellIdx_eq_floor xs nb hn hn64 hmax (maxAbsFinite_bound xs hbmem)
    have hmem := create_mem xs nb i hi (by rw [ha]; rfl) (by rw [hb]; rfl)
      (by rw [ha, hax.1]; exact hax.2) (by rw [hb, hbx.1]; exact hbx.2)
    rw [ha, hb] at hmem ⊢
    rw [hax.1, hbx.1] at hmem
    exact hmem
  · intro i hi hnf p q e he heq
    have hc := create_entries xs nb p q e he
    rcases hnf with h | h
    · have hfin := hc.2.2.1
      rw [hc.1, heq, h] at hfin
      exact Bool.noConfusion hfin
    · have hfin := hc.2.2.2.1
      rw [hc.2.1, heq, h] at hfin
      exact Bool.noConfusion hfin

/-- The positions used to instantiate C4: `(1, 2)` and `(+inf, 0)`. -/
def xsC4 : List F := [F.fin 1, F.fin 2, F.inf, F.fin 0]

theorem C4_witness :
    (1 ≤ 2 ∧ 2 ≤ 2 ^ 64) ∧
    (((Blocking.create xsC4 2).max = maxAbsFinite xsC4 * 1.01 ∧
      (∀ x ∈ xsC4, ∀ a : ℝ, x = F.fin a → |a| ≤ maxAbsFinite xsC4) ∧
      (maxAbsFinite xsC4 = 0 ∨ ∃ a : ℝ, F.fin a ∈ xsC4 ∧ maxAbsFinite xsC4 = |a|) ∧
      (Blocking.create xsC4 2).block_size =
        F.fin (2 * (Blocking.create xsC4 2).max / 2)) ∧
    (∀ i, i < xsC4.length / 2 → 0 < maxAbsFinite xsC4 →
      ∀ a b : ℝ, geti xsC4 (i * 2) = F.fin a → geti xsC4 (i * 2 + 1) = F.fin b →
      (i, geti xsC4 (i * 2), geti xsC4 (i * 2 + 1)) ∈
        bget (Blocking.create xsC4 2).blocks
          (Nat.floor ((a + maxAbsFinite xsC4 * 1.01) /
            (2 * (maxAbsFinite xsC4 * 1.01) / 2)))
          (Nat.floor ((b + maxAbsFinite xsC4 * 1.01) /
            (2 * (maxAbsFinite xsC4 * 1.01) / 2)))) ∧
    (∀ i, i < xsC4.length / 2 →
      (geti xsC4 (i * 2)).isFinite = false ∨
        (geti xsC4 (i * 2 + 1)).isFinite = false →
      ∀ p q, ∀ e ∈ bget (Blocking.create xsC4 2).blocks p q, e.1 ≠ i)) :=
  ⟨⟨by norm_num, by norm_num⟩, C4_blocking_create xsC4 2 (by norm_num) (by norm_num)⟩

/-! ### C10: in-bounds indexing of the grid -/

/-- **C10.** For `n_blocks ≥ 1`, the cell indices `create` uses for
every doubly-finite position are below `n_blocks`, and so are the
indices `nearby` computes for any finite point included in the build
(the same `cellIdx` computation on the same stored `max` and
`block_size`); the guarded adjacent-cell offsets stay in range; and in
the degenerate all-zero build, `block_size` is `0`, the cell-index
expression is NaN, and the float-to-`usize` cast saturates it to cell
`0` — no access is out of range. -/
theorem C10_blocking_in_bounds (xs : List F) (nb : ℕ) (hn : 1 ≤ nb) :
    (∀ i, i < xs.length / 2 →
      (geti xs (i * 2)).isFinite = true → (geti xs (i * 2 + 1)).isFinite = true →
      cellIdx (geti xs (i * 2)) ((Blocking.create xs nb).max)
        ((Blocking.create xs nb).block_size) < nb ∧
      cellIdx (geti xs (i * 2 + 1)) ((Blocking.create xs nb).max)
        ((Blocking.create xs nb).block_size) < nb) ∧
    (∀ x_id : ℕ, x_id < nb →
      (0 < x_id → x_id - 1 < nb) ∧ (x_id < nb - 1 → x_id + 1 < nb)) ∧
    (maxAbsFinite xs = 0 → ∀ a : ℝ, F.fin a ∈ xs →
      (Blocking.create xs nb).block_size = F.fin 0 ∧
      ((F.fin a).add (F.fin ((Blocking.create xs nb).max))).div
        ((Blocking.create xs nb).block_size) = F.nan ∧
      cellIdx (F.fin a) ((Blocking.create xs nb).max)
        ((Blocking.create xs nb).block_size) = 0) := by
  refine ⟨?_, ?_, ?_⟩
  · intro i hi hx hy
    have h2i : i * 2 < xs.length := by omega
    have h2i1 : i * 2 + 1 < xs.length := by omega
    obtain ⟨a, ha⟩ := F.eq_fin_of_isFinite hx
    obtain ⟨b, hb⟩ := F.eq_fin_of_isFinite hy
    constructor
    · rw [ha]
      exact cellIdx_lt xs nb hn (ha ▸ geti_mem xs h2i)
    · rw [hb]
      exact cellIdx_lt xs nb hn (hb ▸ geti_mem xs h2i1)
  · intro x_id hx
    omega
  · intro hmax a ha
    exact cellIdx_degenerate xs nb hn hmax ha

theorem C10_witness :
    1 ≤ 1 ∧
    ((∀ i, i < ([F.fin 0, F.fin 0] : List F).length / 2 →
      (geti [F.fin 0, F.fin 0] (i * 2)).isFinite = true →
      (geti [F.fin 0, F.fin 0] (i * 2 + 1)).isFinite = true →
      cellIdx (geti [F.fin 0, F.fin 0] (i * 2))
        ((Blocking.create [F.fin 0, F.fin 0] 1).max)
        ((Blocking.create [F.fin 0, F.fin 0] 1).block_size) < 1 ∧
      cellIdx (geti [F.fin 0, F.fin 0] (i * 2 + 1))
        ((Blocking.create [F.fin 0, F.fin 0] 1).max)
        ((Blocking.create [F.fin 0, F.fin 0] 1).block_size) < 1) ∧
    (∀ x_id : ℕ, x_id < 1 →
      (0 < x_id → x_id - 1 < 1) ∧ (x_id < 1 - 1 → x_id + 1 < 1)) ∧
    (maxAbsFinite [F.fin 0, F.fin 0] = 0 → ∀ a : ℝ,
      F.fin a ∈ ([F.fin 0, F.fin 0] : List F) →
      (Blocking.create [F.fin 0, F.fin 0] 1).block_size = F.fin 0 ∧
      ((F.fin a).add (F.fin ((Blocking.create [F.fin 0, F.fin 0] 1).max))).div
        ((Blocking.create [F.fin 0, F.fin 0] 1).block_size) = F.nan ∧
      cellIdx (F.fin a) ((Blocking.create [F.fin 0, F.fin 0] 1).max)
        ((Blocking.create [F.fin 0, F.fin 0] 1).block_size) = 0)) :=
  ⟨le_refl 1, C10_blocking_in_bounds [F.fin 0, F.fin 0] 1 (le_refl 1)⟩

/-! ### C2: blocking parity -/

/-- Two points on the diagonal at `(-10,-10)` and `(10,10)`. -/
def locC2 : List F := [F.fin (-10), F.fin (-10), F.fin 10, F.fin 10]

/-- Repulsion-only model with a large `repulse_dist`, naive path. -/
def mC2n : Model :=
  { spring := 0, repulse := 1, repulse_dist := 40, repulse_rigidity := 0,
    canvas := 0, canvas_size := 1, canvas_rigidity := 1, n_blocks := 1 }

/-- The same model on the blocked path (`n_blocks = 5`). -/
def mC2b : Model :=
  { spring := 0, repulse := 1, repulse_dist := 40, repulse_rigidity := 0,
    canvas := 0, canvas_size := 1, canvas_rigidity := 1, n_blocks := 5 }

theorem maxAbs_locC2 : maxAbsFinite locC2 = 10 := by
  rw [maxAbsFinite, locC2]
  simp only [List.foldl_cons, List.foldl_nil]
  norm_num [abs_of_nonpos, abs_of_nonneg]

theorem cellC2_neg : cellIdx (F.fin (-10)) (maxAbsFinite locC2 * 1.01)
    ((F.fin (maxAbsFinite locC2 * 1.01 * 2)).div (F.fin ((5:ℕ) : ℝ))) = 0 := by
  rw [maxAbs_locC2, F.div_fin_fin _ _ (by norm_num : ((5:ℕ) : ℝ) ≠ 0), cellIdx,
    F.add_fin_fin, F.div_fin_fin _ _ (by norm_num : (10 * 1.01 * 2 / ((5:ℕ):ℝ)) ≠ 0)]
  show min (Nat.floor ((-10 + 10 * 1.01) / (10 * 1.01 * 2 / ((5:ℕ):ℝ)))) (2 ^ 64 - 1) = 0
  rw [Nat.floor_eq_zero.mpr (by norm_num)]
  omega

theorem cellC2_pos : cellIdx (F.fin 10) (maxAbsFinite locC2 * 1.01)
    ((F.fin (maxAbsFinite locC2 * 1.01 * 2)).div (F.fin ((5:ℕ) : ℝ))) = 4 := by
  rw [maxAbs_locC2, F.div_fin_fin _ _ (by norm_num : ((5:ℕ) : ℝ) ≠ 0), cellIdx,
    F.add_fin_fin, F.div_fin_fin _ _ (by norm_num : (10 * 1.01 * 2 / ((5:ℕ):ℝ)) ≠ 0)]
  show min (Nat.floor ((10 + 10 * 1.01) / (10 * 1.01 * 2 / ((5:ℕ):ℝ)))) (2 ^ 64 - 1) = 4
  rw [show Nat.floor ((10 + 10 * 1.01) / (10 * 1.01 * 2 / ((5:ℕ):ℝ))) = 4 from by
    rw [Nat.floor_eq_iff (by norm_num)]
    constructor
    · norm_num
    · norm_num]
  omega

theorem blocks_locC2 : (Blocking.create locC2 5).blocks =
    [[[(0, F.fin (-10), F.fin (-10))], [], [], [], []],
     [[], [], [], [], []],
     [[], [], [], [], []],
     [[], [], [], [], []],
     [[], [], [], [], [(1, F.fin 10, F.fin 10)]]] := by
  show (List.range (locC2.length / 2)).foldl (fun b i =>
      if (geti locC2 (i * 2)).isFinite && (geti locC2 (i * 2 + 1)).isFinite then
        bset b (cellIdx (geti locC2 (i * 2)) (maxAbsFinite locC2 * 1.01)
            ((F.fin (maxAbsFinite locC2 * 1.01 * 2)).div (F.fin ((5:ℕ) : ℝ))))
          (cellIdx (geti locC2 (i * 2 + 1)) (maxAbsFinite locC2 * 1.01)
            ((F.fin (maxAbsFinite locC2 * 1.01 * 2)).div (F.fin ((5:ℕ) : ℝ))))
          (bget b (cellIdx (geti locC2 (i * 2)) (maxAbsFinite locC2 * 1.01)
              ((F.fin (maxAbsFinite locC2 * 1.01 * 2)).div (F.fin ((5:ℕ) : ℝ))))
            (cellIdx (geti locC2 (i * 2 + 1)) (maxAbsFinite locC2 * 1.01)
              ((F.fin (maxAbsFinite locC2 * 1.01 * 2)).div (F.fin ((5:ℕ) : ℝ)))) ++
            [(i, geti locC2 (i * 2), geti locC2 (i * 2 + 1))])
      else b)
    (List.replicate 5 (List.replicate 5 [])) = _
  rw [show List.range (locC2.length / 2) = [0, 1] from rfl, List.foldl_cons,
    List.foldl_cons, List.foldl_nil]
  simp only [show geti locC2 (0 * 2) = F.fin (-10) from rfl,
    show geti locC2 (0 * 2 + 1) = F.fin (-10) from rfl,
    show geti locC2 (1 * 2) = F.fin 10 from rfl,
    show geti locC2 (1 * 2 + 1) = F.fin 10 from rfl,
    F.isFinite_fin, Bool.and_self, if_true, cellC2_neg, cellC2_pos]
  rfl

theorem nearby_locC2_neg : (Blocking.create locC2 5).nearby (F.fin (-10)) (F.fin (-10)) =
    [(0, F.fin (-10), F.fin (-10))] := by
  rw [Blocking.nearby]
  simp only [F.isFinite_fin, Bool.and_self]
  rw [if_pos trivial,
    show (Blocking.create locC2 5).max = maxAbsFinite locC2 * 1.01 from rfl,
    show (Blocking.create locC2 5).block_size =
      (F.fin (maxAbsFinite locC2 * 1.01 * 2)).div (F.fin ((5:ℕ) : ℝ)) from rfl,
    cellC2_neg,
    show (Blocking.create locC2 5).n_blocks = 5 from rfl, blocks_locC2]
  rfl

theorem nearby_locC2_pos : (Blocking.create locC2 5).nearby (F.fin 10) (F.fin 10) =
    [(1, F.fin 10, F.fin 10)] := by
  rw [Blocking.nearby]
  simp only [F.isFinite_fin, Bool.and_self]
  rw [if_pos trivial,
    show (Blocking.create locC2 5).max = maxAbsFinite locC2 * 1.01 from rfl,
    show (Blocking.create locC2 5).block_size =
      (F.fin (maxAbsFinite locC2 * 1.01 * 2)).div (F.fin ((5:ℕ) : ℝ)) from rfl,
    cellC2_pos,
    show (Blocking.create locC2 5).n_blocks = 5 from rfl, blocks_locC2]
  rfl

theorem canvC2 : ∀ v, v < g2v.n → ∃ aa bb, geti locC2 (v * 2) = F.fin aa ∧
    geti locC2 (v * 2 + 1) = F.fin bb ∧
    (0 < aa * aa + bb * bb ∨ 0 ≤ mC2b.canvas_rigidity) := by
  intro v hv
  have hv2 : v < 2 := hv
  interval_cases v
  · exact ⟨-10, -10, rfl, rfl, Or.inl (by norm_num)⟩
  · exact ⟨10, 10, rfl, rfl, Or.inl (by norm_num)⟩

/-- **C2, counterexample.** Two well-separated points (distance
`√800 ≈ 28.3`, block size `4.04`) land in opposite corner cells of the
5×5 grid, so the blocked path scans no pair while the naive path adds
`2 * softplus(40 - √800)` of repulsion: the two costs differ by far
more than `1e-9`, refuting the universal blocking-parity claim. -/
theorem C2_counterexample :
    (4.04 : ℝ) < Real.sqrt (((-10:ℝ) - 10) * ((-10:ℝ) - 10) +
      ((-10:ℝ) - 10) * ((-10:ℝ) - 10)) ∧
    (Blocking.create locC2 5).block_size = F.fin 4.04 ∧
    g2v.cost locC2 mC2b = F.fin 0 ∧
    g2v.cost locC2 mC2n = F.fin (2 * Real.log (1 + Real.exp (40 - Real.sqrt 800))) ∧
    (1e-9 : ℝ) < 2 * Real.log (1 + Real.exp (40 - Real.sqrt 800)) - 0 := by
  refine ⟨?_, ?_, ?_, ?_, ?_⟩
  · rw [show ((-10:ℝ) - 10) * ((-10:ℝ) - 10) + ((-10:ℝ) - 10) * ((-10:ℝ) - 10) =
      800 from by norm_num]
    rw [show (4.04:ℝ) = Real.sqrt (4.04 ^ 2) from
      (Real.sqrt_sq (by norm_num)).symm]
    exact Real.sqrt_lt_sqrt (by positivity) (by norm_num)
  · rw [block_size_eq locC2 5 (by norm_num), maxAbs_locC2]
    exact congrArg F.fin (by norm_num)
  · show canvasCost g2v.n locC2 mC2b
      (if 1 < mC2b.n_blocks then
        repulseCostBlocked g2v.n locC2 mC2b (springCost g2v.edges locC2 mC2b (F.fin 0))
       else
        repulseCostNaive g2v.n locC2 mC2b
          (springCost g2v.edges locC2 mC2b (F.fin 0))) = F.fin 0
    rw [if_pos (by norm_num [mC2b]),
      show springCost g2v.edges locC2 mC2b (F.fin 0) = F.fin 0 from rfl,
      repulseCostBlocked, show List.range g2v.n = [0, 1] from rfl, List.foldl_cons,
      List.foldl_cons, List.foldl_nil]
    simp only [show geti locC2 (0 * 2) = F.fin (-10) from rfl,
      show geti locC2 (0 * 2 + 1) = F.fin (-10) from rfl,
      show geti locC2 (1 * 2) = F.fin 10 from rfl,
      show geti locC2 (1 * 2 + 1) = F.fin 10 from rfl,
      show mC2b.n_blocks = 5 from rfl, nearby_locC2_neg, nearby_locC2_pos,
      List.foldl_cons, List.foldl_nil, repulseCostPairStep]
    rw [if_neg (by norm_num : ¬((0:ℕ) ≠ 0)), if_neg (by norm_num : ¬((1:ℕ) ≠ 1))]
    exact canvasCost_id _ _ _ _ rfl (by norm_num [mC2b]) canvC2
  · show canvasCost g2v.n locC2 mC2n
      (if 1 < mC2n.n_blocks then
        repulseCostBlocked g2v.n locC2 mC2n (springCost g2v.edges locC2 mC2n (F.fin 0))
       else
        repulseCostNaive g2v.n locC2 mC2n
          (springCost g2v.edges locC2 mC2n (F.fin 0))) = _
    rw [if_neg (by norm_num [mC2n]),
      show springCost g2v.edges locC2 mC2n (F.fin 0) = F.fin 0 from rfl,
      repulseCostNaive, show List.range g2v.n = [0, 1] from rfl]
    simp only [List.foldl_cons, List.foldl_nil, repulseCostPairStep]
    rw [if_neg (by norm_num : ¬((0:ℕ) ≠ 0)), if_pos (by norm_num : (0:ℕ) ≠ 1),
      if_pos (by norm_num : (1:ℕ) ≠ 0), if_neg (by norm_num : ¬((1:ℕ) ≠ 1))]
    simp only [show geti locC2 (0 * 2) = F.fin (-10) from rfl,
      show geti locC2 (0 * 2 + 1) = F.fin (-10) from rfl,
      show geti locC2 (1 * 2) = F.fin 10 from rfl,
      show geti locC2 (1 * 2 + 1) = F.fin 10 from rfl, F.sub_fin_fin]
    rw [repulse_cost_fin, repulse_cost_fin,
      show ((-10:ℝ) - 10) * ((-10:ℝ) - 10) + ((-10:ℝ) - 10) * ((-10:ℝ) - 10) =
        800 from by norm_num,
      show ((10:ℝ) - -10) * ((10:ℝ) - -10) + ((10:ℝ) - -10) * ((10:ℝ) - -10) =
        800 from by norm_num]
    simp only [F.add_fin_fin]
    rw [canvasCost_id _ _ _ _ rfl (by norm_num [mC2n]) (by
      intro v hv
      have hv2 : v < 2 := hv
      interval_cases v
      · exact ⟨-10, -10, rfl, rfl, Or.inl (by norm_num)⟩
      · exact ⟨10, 10, rfl, rfl, Or.inl (by norm_num)⟩)]
    exact congrArg F.fin (by
      rw [show mC2n.repulse = 1 from rfl, show mC2n.repulse_dist = 40 from rfl]
      ring)
  · have hsq : Real.sqrt 800 ≤ 40 := by
      rw [show (40:ℝ) = Real.sqrt (40 ^ 2) from (Real.sqrt_sq (by norm_num)).symm]
      exact Real.sqrt_le_sqrt (by norm_num)
    have hexp : (1:ℝ) ≤ Real.exp (40 - Real.sqrt 800) :=
      Real.one_le_exp (by linarith)
    have hlog : Real.log 2 ≤ Real.log (1 + Real.exp (40 - Real.sqrt 800)) :=
      Real.log_le_log (by norm_num) (by linarith)
    have h2 := Real.log_two_gt_d9
    linarith

/-- Subtracting twice from the same accumulator slot commutes:
`(x - a) - b = (x - b) - a` in `F` (sub is add of the negation). -/
theorem F.sub_sub_comm (x a b : F) : (x.sub a).sub b = (x.sub b).sub a :=
  F.add_right_comm' x a.neg b.neg

/-- Two `gradient[i] -= _` updates of the same slot commute. -/
theorem gsub_gsub_same (gr : List F) (i : ℕ) (a b : F) :
    gsub (gsub gr i a) i b = gsub (gsub gr i b) i a := by
  by_cases h : i < gr.length
  · show (gsub gr i a).set i (((gsub gr i a).getD i F.nan).sub b)
      = (gsub gr i b).set i (((gsub gr i b).getD i F.nan).sub a)
    rw [show (gsub gr i a).getD i F.nan = (gr.getD i F.nan).sub a from
        getD_set_self gr F.nan _ h,
      show (gsub gr i b).getD i F.nan = (gr.getD i F.nan).sub b from
        getD_set_self gr F.nan _ h]
    show (gr.set i _).set i _ = (gr.set i _).set i _
    rw [List.set_set, List.set_set, F.sub_sub_comm]
  · have h' : gr.length ≤ i := Nat.le_of_not_lt h
    show (gsub gr i a).set i _ = (gsub gr i b).set i _
    rw [show gsub gr i a = gr from List.set_eq_of_length_le h',
      show gsub gr i b = gr from List.set_eq_of_length_le h',
      List.set_eq_of_length_le h', List.set_eq_of_length_le h']

/-- `gradient[i] -= _` updates of distinct slots commute. -/
theorem gsub_gsub_ne (gr : List F) {i j : ℕ} (h : i ≠ j) (a b : F) :
    gsub (gsub gr i a) j b = gsub (gsub gr j b) i a := by
  show (gsub gr i a).set j (((gsub gr i a).getD j F.nan).sub b)
    = (gsub gr j b).set i (((gsub gr j b).getD i F.nan).sub a)
  rw [show (gsub gr i a).getD j F.nan = gr.getD j F.nan from getD_set_ne gr F.nan _ h.symm,
    show (gsub gr j b).getD i F.nan = gr.getD i F.nan from getD_set_ne gr F.nan _ h]
  exact List.set_comm _ _ gr h

/-- Two `repulse_grad`-shaped double updates of the slot pair `(i, j)`
commute with each other. -/
theorem gsub4_swap (gr : List F) {i j : ℕ} (h : i ≠ j) (a b a' b' : F) :
    gsub (gsub (gsub (gsub gr i a) j b) i a') j b' =
    gsub (gsub (gsub (gsub gr i a') j b') i a) j b := by
  rw [← gsub_gsub_ne (gsub gr i a) h a' b, gsub_gsub_same gr i a a',
    gsub_gsub_same (gsub (gsub gr i a') i a) j b b',
    gsub_gsub_ne (gsub gr i a') h a b']

/-- The per-candidate cost step for a fixed `v1` is right-commutative,
so the scanned candidates may be folded in any order. -/
theorem repulseCostPairStep_rightComm (loc : List F) (m : Model) (v1 : ℕ) :
    ∀ (c : F) (t t' : ℕ × F × F),
      repulseCostPairStep loc m v1 (repulseCostPairStep loc m v1 c t) t' =
      repulseCostPairStep loc m v1 (repulseCostPairStep loc m v1 c t') t := by
  intro c t t'
  simp only [repulseCostPairStep]
  split_ifs
  · exact F.add_right_comm' c _ _
  · rfl
  · rfl
  · rfl

/-- The per-candidate gradient step for a fixed `v1` is
right-commutative: it only ever touches the two slots `v1*2` and
`v1*2+1`, by amounts independent of the accumulated gradient. -/
theorem repulseGradPairStep_rightComm (loc : List F) (m : Model) (v1 : ℕ) :
    ∀ (gr : List F) (t t' : ℕ × F × F),
      repulseGradPairStep loc m v1 (repulseGradPairStep loc m v1 gr t) t' =
      repulseGradPairStep loc m v1 (repulseGradPairStep loc m v1 gr t') t := by
  intro gr t t'
  simp only [repulseGradPairStep, repulse_grad]
  split_ifs <;>
    first
    | rfl
    | exact gsub4_swap gr (by omega) _ _ _ _

/-- If, for every vertex, `nearby` returns a permutation of the full
candidate list of the naive path, the blocked cost pass computes
exactly the naive cost pass. -/
theorem repulseCostBlocked_eq_naive (n : ℕ) (loc : List F) (m : Model) (c : F)
    (hcov : ∀ v1, v1 < n → List.Perm
      ((Blocking.create loc m.n_blocks).nearby (geti loc (v1 * 2)) (geti loc (v1 * 2 + 1)))
      ((List.range n).map fun v2 => (v2, geti loc (v2 * 2), geti loc (v2 * 2 + 1)))) :
    repulseCostBlocked n loc m c = repulseCostNaive n loc m c := by
  show (List.range n).foldl (fun c v1 =>
      ((Blocking.create loc m.n_blocks).nearby (geti loc (v1 * 2))
        (geti loc (v1 * 2 + 1))).foldl (repulseCostPairStep loc m v1) c) c = _
  rw [repulseCostNaive]
  apply List.foldl_ext
  intro c v1 hv1
  rw [@List.Perm.foldl_eq _ _ (repulseCostPairStep loc m v1) _ _
      ⟨repulseCostPairStep_rightComm loc m v1⟩ (hcov v1 (List.mem_range.mp hv1)) c,
    List.foldl_map]

/-- The gradient analogue of `repulseCostBlocked_eq_naive`. -/
theorem repulseGradBlocked_eq_naive (n : ℕ) (loc : List F) (m : Model) (gr : List F)
    (hcov : ∀ v1, v1 < n → List.Perm
      ((Blocking.create loc m.n_blocks).nearby (geti loc (v1 * 2)) (geti loc (v1 * 2 + 1)))
      ((List.range n).map fun v2 => (v2, geti loc (v2 * 2), geti loc (v2 * 2 + 1)))) :
    repulseGradBlocked n loc m gr = repulseGradNaive n loc m gr := by
  show (List.range n).foldl (fun gr v1 =>
      ((Blocking.create loc m.n_blocks).nearby (geti loc (v1 * 2))
        (geti loc (v1 * 2 + 1))).foldl (repulseGradPairStep loc m v1) gr) gr = _
  rw [repulseGradNaive]
  apply List.foldl_ext
  intro gr v1 hv1
  rw [@List.Perm.foldl_eq _ _ (repulseGradPairStep loc m v1) _ _
      ⟨repulseGradPairStep_rightComm loc m v1⟩ (hcov v1 (List.mem_range.mp hv1)) gr,
    List.foldl_map]

/-- **C2 (amended).** Both `cost` and `gradient` select the blocked
enumeration exactly when `n_blocks > 1` (shown at `n_blocks = 5`
against `n_blocks = 1`), and whenever `nearby` covers, for every
vertex, a permutation of the naive candidate list, the blocked and
naive results agree exactly (hence within `1e-9`). -/
theorem C2_blocking_parity (g : Graph) (loc : List F) (m : Model)
    (hcov : ∀ v1, v1 < g.n → List.Perm
      ((Blocking.create loc 5).nearby (geti loc (v1 * 2)) (geti loc (v1 * 2 + 1)))
      ((List.range g.n).map fun v2 => (v2, geti loc (v2 * 2), geti loc (v2 * 2 + 1)))) :
    (g.cost loc { m with n_blocks := 5 } =
        canvasCost g.n loc { m with n_blocks := 5 }
          (repulseCostBlocked g.n loc { m with n_blocks := 5 }
            (springCost g.edges loc { m with n_blocks := 5 } (F.fin 0))) ∧
      g.cost loc { m with n_blocks := 1 } =
        canvasCost g.n loc { m with n_blocks := 1 }
          (repulseCostNaive g.n loc { m with n_blocks := 1 }
            (springCost g.edges loc { m with n_blocks := 1 } (F.fin 0))) ∧
      g.gradient loc { m with n_blocks := 5 } =
        canvasGrad g.n loc { m with n_blocks := 5 }
          (repulseGradBlocked g.n loc { m with n_blocks := 5 }
            (springGrad g.edges loc { m with n_blocks := 5 }
              (List.replicate (g.n * 2) (F.fin 0)))) ∧
      g.gradient loc { m with n_blocks := 1 } =
        canvasGrad g.n loc { m with n_blocks := 1 }
          (repulseGradNaive g.n loc { m with n_blocks := 1 }
            (springGrad g.edges loc { m with n_blocks := 1 }
              (List.replicate (g.n * 2) (F.fin 0))))) ∧
    g.cost loc { m with n_blocks := 5 } = g.cost loc { m with n_blocks := 1 } ∧
    g.gradient loc { m with n_blocks := 5 } = g.gradient loc { m with n_blocks := 1 } := by
  have hB := repulseCostBlocked_eq_naive g.n loc { m with n_blocks := 5 }
    (springCost g.edges loc { m with n_blocks := 5 } (F.fin 0)) hcov
  have hG := repulseGradBlocked_eq_naive g.n loc { m with n_blocks := 5 }
    (springGrad g.edges loc { m with n_blocks := 5 }
      (List.replicate (g.n * 2) (F.fin 0))) hcov
  refine ⟨⟨rfl, rfl, rfl, rfl⟩, ?_, ?_⟩
  · show canvasCost g.n loc { m with n_blocks := 5 }
        (repulseCostBlocked g.n loc { m with n_blocks := 5 }
          (springCost g.edges loc { m with n_blocks := 5 } (F.fin 0))) =
      canvasCost g.n loc { m with n_blocks := 1 }
        (repulseCostNaive g.n loc { m with n_blocks := 1 }
          (springCost g.edges loc { m with n_blocks := 1 } (F.fin 0)))
    exact congrArg (canvasCost g.n loc { m with n_blocks := 5 }) hB
  · show canvasGrad g.n loc { m with n_blocks := 5 }
        (repulseGradBlocked g.n loc { m with n_blocks := 5 }
          (springGrad g.edges loc { m with n_blocks := 5 }
            (List.replicate (g.n * 2) (F.fin 0)))) =
      canvasGrad g.n loc { m with n_blocks := 1 }
        (repulseGradNaive g.n loc { m with n_blocks := 1 }
          (springGrad g.edges loc { m with n_blocks := 1 }
            (List.replicate (g.n * 2) (F.fin 0))))
    exact congrArg (canvasGrad g.n loc { m with n_blocks := 5 }) hG

/-- Two nearby points at `(1,0)` and `(2,0)`: their cells `(3,2)` and
`(4,2)` are adjacent, so `nearby` covers both vertices from each. -/
def locW : List F := [F.fin 1, F.fin 0, F.fin 2, F.fin 0]

/-- An all-ones model for the parity witness (`n_blocks` overridden). -/
def mW : Model :=
  { spring := 1, repulse := 1, repulse_dist := 1, repulse_rigidity := 1,
    canvas := 1, canvas_size := 1, canvas_rigidity := 1, n_blocks := 0 }

theorem maxAbs_locW : maxAbsFinite locW = 2 := by
  rw [maxAbsFinite, locW]
  simp only [List.foldl_cons, List.foldl_nil]
  norm_num [abs_of_nonneg]

theorem cellW_1 : cellIdx (F.fin 1) (maxAbsFinite locW * 1.01)
    ((F.fin (maxAbsFinite locW * 1.01 * 2)).div (F.fin ((5:ℕ) : ℝ))) = 3 := by
  rw [maxAbs_locW, F.div_fin_fin _ _ (by norm_num : ((5:ℕ) : ℝ) ≠ 0), cellIdx,
    F.add_fin_fin, F.div_fin_fin _ _ (by norm_num : (2 * 1.01 * 2 / ((5:ℕ):ℝ)) ≠ 0)]
  show min (Nat.floor ((1 + 2 * 1.01) / (2 * 1.01 * 2 / ((5:ℕ):ℝ)))) (2 ^ 64 - 1) = 3
  rw [show Nat.floor ((1 + 2 * 1.01) / (2 * 1.01 * 2 / ((5:ℕ):ℝ))) = 3 from by
    rw [Nat.floor_eq_iff (by norm_num)]
    constructor
    · norm_num
    · norm_num]
  omega

theorem cellW_2 : cellIdx (F.fin 2) (maxAbsFinite locW * 1.01)
    ((F.fin (maxAbsFinite locW * 1.01 * 2)).div (F.fin ((5:ℕ) : ℝ))) = 4 := by
  rw [maxAbs_locW, F.div_fin_fin _ _ (by norm_num : ((5:ℕ) : ℝ) ≠ 0), cellIdx,
    F.add_fin_fin, F.div_fin_fin _ _ (by norm_num : (2 * 1.01 * 2 / ((5:ℕ):ℝ)) ≠ 0)]
  show min (Nat.floor ((2 + 2 * 1.01) / (2 * 1.01 * 2 / ((5:ℕ):ℝ)))) (2 ^ 64 - 1) = 4
  rw [show Nat.floor ((2 + 2 * 1.01) / (2 * 1.01 * 2 / ((5:ℕ):ℝ))) = 4 from by
    rw [Nat.floor_eq_iff (by norm_num)]
    constructor
    · norm_num
    · norm_num]
  omega

theorem cellW_0 : cellIdx (F.fin 0) (maxAbsFinite locW * 1.01)
    ((F.fin (maxAbsFinite locW * 1.01 * 2)).div (F.fin ((5:ℕ) : ℝ))) = 2 := by
  rw [maxAbs_locW, F.div_fin_fin _ _ (by norm_num : ((5:ℕ) : ℝ) ≠ 0), cellIdx,
    F.add_fin_fin, F.div_fin_fin _ _ (by norm_num : (2 * 1.01 * 2 / ((5:ℕ):ℝ)) ≠ 0)]
  show min (Nat.floor ((0 + 2 * 1.01) / (2 * 1.01 * 2 / ((5:ℕ):ℝ)))) (2 ^ 64 - 1) = 2
  rw [show Nat.floor ((0 + 2 * 1.01) / (2 * 1.01 * 2 / ((5:ℕ):ℝ))) = 2 from by
    rw [Nat.floor_eq_iff (by norm_num)]
    constructor
    · norm_num
    · norm_num]
  omega

theorem blocks_locW : (Blocking.create locW 5).blocks =
    [[[], [], [], [], []],
     [[], [], [], [], []],
     [[], [], [], [], []],
     [[], [], [(0, F.fin 1, F.fin 0)], [], []],
     [[], [], [(1, F.fin 2, F.fin 0)], [], []]] := by
  show (List.range (locW.length / 2)).foldl (fun b i =>
      if (geti locW (i * 2)).isFinite && (geti locW (i * 2 + 1)).isFinite then
        bset b (cellIdx (geti locW (i * 2)) (maxAbsFinite locW * 1.01)
            ((F.fin (maxAbsFinite locW * 1.01 * 2)).div (F.fin ((5:ℕ) : ℝ))))
          (cellIdx (geti locW (i * 2 + 1)) (maxAbsFinite locW * 1.01)
            ((F.fin (maxAbsFinite locW * 1.01 * 2)).div (F.fin ((5:ℕ) : ℝ))))
          (bget b (cellIdx (geti locW (i * 2)) (maxAbsFinite locW * 1.01)
              ((F.fin (maxAbsFinite locW * 1.01 * 2)).div (F.fin ((5:ℕ) : ℝ))))
            (cellIdx (geti locW (i * 2 + 1)) (maxAbsFinite locW * 1.01)
              ((F.fin (maxAbsFinite locW * 1.01 * 2)).div (F.fin ((5:ℕ) : ℝ)))) ++
            [(i, geti locW (i * 2), geti locW (i * 2 + 1))])
      else b)
    (List.replicate 5 (List.replicate 5 [])) = _
  rw [show List.range (locW.length / 2) = [0, 1] from rfl, List.foldl_cons,
    List.foldl_cons, List.foldl_nil]
  simp only [show geti locW (0 * 2) = F.fin 1 from rfl,
    show geti locW (0 * 2 + 1) = F.fin 0 from rfl,
    show geti locW (1 * 2) = F.fin 2 from rfl,
    show geti locW (1 * 2 + 1) = F.fin 0 from rfl,
    F.isFinite_fin, Bool.and_self, if_true, cellW_1, cellW_2, cellW_0]
  rfl

theorem nearbyW0 : (Blocking.create locW 5).nearby (F.fin 1) (F.fin 0) =
    [(0, F.fin 1, F.fin 0), (1, F.fin 2, F.fin 0)] := by
  rw [Blocking.nearby]
  simp only [F.isFinite_fin, Bool.and_self]
  rw [if_pos trivial,
    show (Blocking.create locW 5).max = maxAbsFinite locW * 1.01 from rfl,
    show (Blocking.create locW 5).block_size =
      (F.fin (maxAbsFinite locW * 1.01 * 2)).div (F.fin ((5:ℕ) : ℝ)) from rfl,
    cellW_1, cellW_0,
    show (Blocking.create locW 5).n_blocks = 5 from rfl, blocks_locW]
  rfl

theorem nearbyW1 : (Blocking.create locW 5).nearby (F.fin 2) (F.fin 0) =
    [(1, F.fin 2, F.fin 0), (0, F.fin 1, F.fin 0)] := by
  rw [Blocking.nearby]
  simp only [F.isFinite_fin, Bool.and_self]
  rw [if_pos trivial,
    show (Blocking.create locW 5).max = maxAbsFinite locW * 1.01 from rfl,
    show (Blocking.create locW 5).block_size =
      (F.fin (maxAbsFinite locW * 1.01 * 2)).div (F.fin ((5:ℕ) : ℝ)) from rfl,
    cellW_2, cellW_0,
    show (Blocking.create locW 5).n_blocks = 5 from rfl, blocks_locW]
  rfl

/-- On `locW`, `nearby` covers the naive candidate list (up to order)
for both vertices. -/
theorem covW : ∀ v1, v1 < g2v.n → List.Perm
    ((Blocking.create locW 5).nearby (geti locW (v1 * 2)) (geti locW (v1 * 2 + 1)))
    ((List.range g2v.n).map fun v2 => (v2, geti locW (v2 * 2), geti locW (v2 * 2 + 1))) := by
  intro v1 hv1
  rw [show ((List.range g2v.n).map fun v2 =>
      (v2, geti locW (v2 * 2), geti locW (v2 * 2 + 1)))
    = [(0, F.fin 1, F.fin 0), (1, F.fin 2, F.fin 0)] from rfl]
  have hv2 : v1 < 2 := hv1
  interval_cases v1
  · rw [show geti locW (0 * 2) = F.fin 1 from rfl,
      show geti locW (0 * 2 + 1) = F.fin 0 from rfl, nearbyW0]
  · rw [show geti locW (1 * 2) = F.fin 2 from rfl,
      show geti locW (1 * 2 + 1) = F.fin 0 from rfl, nearbyW1]
    exact List.Perm.swap _ _ _

/-- The parity theorem applied at the concrete two-vertex
configuration `locW` with all-ones parameters. -/
theorem C2_witness :
    List.Perm ((Blocking.create locW 5).nearby (geti locW (0 * 2)) (geti locW (0 * 2 + 1)))
      ((List.range g2v.n).map fun v2 => (v2, geti locW (v2 * 2), geti locW (v2 * 2 + 1))) ∧
    g2v.cost locW { mW with n_blocks := 5 } = g2v.cost locW { mW with n_blocks := 1 } ∧
    g2v.gradient locW { mW with n_blocks := 5 } =
      g2v.gradient locW { mW with n_blocks := 1 } :=
  ⟨covW 0 Nat.zero_lt_two, (C2_blocking_parity g2v locW mW covW).2⟩

/-! ### C8: the unguarded canvas gradient -/

/-- A model with a negative canvas size and integer rigidity 2:
`(-1)^(-2) = 1` is finite. -/
def mC8bad : Model :=
  { spring := 0, repulse := 0, repulse_dist := 0, repulse_rigidity := 0,
    canvas := 1, canvas_size := -1, canvas_rigidity := 2, n_blocks := 1 }

theorem powfin_neg_one_neg_two : F.powfin (-1) (-2) = F.fin 1 := by
  have hodd : ¬ F.isOddInt (-2) := by
    rintro ⟨n, hn⟩
    have hz : (2 * n + 1 : ℤ) = -2 := by exact_mod_cast hn
    omega
  have hev : F.isEvenInt (-2) := ⟨-1, by norm_num⟩
  rw [F.powfin, if_neg (by norm_num : ((-2):ℝ) ≠ 0),
    if_neg (by norm_num : ((-1):ℝ) ≠ 1), if_neg (by norm_num : ¬(0:ℝ) < -1),
    if_neg (by norm_num : ((-1):ℝ) ≠ 0), if_neg hodd, if_pos hev]
  norm_num

/-- **C8, counterexample.** With `canvas_size = -1 ≤ 0` and rigidity
2 (an even integer), IEEE `pow` gives `(-1)^(-2) = 1` and the whole
canvas gradient of a vertex at `(1, 0)` is the finite value `2`:
the gradient is `[2, 0]` with no non-finite component, refuting
"non-finite whenever `canvas_size <= 0`". -/
theorem C8_counterexample :
    mC8bad.canvas_size ≤ 0 ∧
    g1v.gradient [F.fin 1, F.fin 0] mC8bad = [F.fin 2, F.fin 0] := by
  refine ⟨by norm_num [mC8bad], ?_⟩
  have hpw : (F.fin mC8bad.canvas_size).powf (F.fin (-mC8bad.canvas_rigidity)) =
      F.fin 1 := by
    rw [show mC8bad.canvas_size = -1 from rfl, show mC8bad.canvas_rigidity = 2 from rfl,
      show (F.fin ((-1):ℝ)).powf (F.fin (-(2:ℝ))) = F.powfin (-1) (-2) from rfl]
    exact powfin_neg_one_neg_two
  have hstep : canvasGradStep [F.fin 1, F.fin 0] mC8bad [F.fin 0, F.fin 0] 0 =
      [F.fin 2, F.fin 0] := by
    rw [canvasGradStep]
    simp only [show (0:ℕ) * 2 = 0 from rfl, show (0:ℕ) + 1 = 1 from rfl,
      show geti [F.fin 1, F.fin 0] 0 = F.fin 1 from rfl,
      show geti [F.fin 1, F.fin 0] 1 = F.fin 0 from rfl, hpw,
      F.mul_fin_fin, F.add_fin_fin]
    rw [show ((1:ℝ) * 1 + 0 * 0) = 1 from by norm_num, F.sqrt_fin _ (by norm_num),
      Real.sqrt_one,
      show (F.fin (1:ℝ)).powf (F.fin (mC8bad.canvas_rigidity - 2)) =
        F.powfin 1 (mC8bad.canvas_rigidity - 2) from rfl,
      show F.powfin 1 (mC8bad.canvas_rigidity - 2) = F.fin 1 from by
        rw [show mC8bad.canvas_rigidity = 2 from rfl, F.powfin, if_pos (by norm_num)]]
    simp only [F.mul_fin_fin]
    rw [gupd2_0, gupd2_1]
    simp only [F.add_fin_fin, List.cons.injEq, F.fin.injEq, and_true]
    constructor
    · norm_num [mC8bad]
    · norm_num [mC8bad]
  show canvasGrad g1v.n [F.fin 1, F.fin 0] mC8bad
    (if 1 < mC8bad.n_blocks then
      repulseGradBlocked g1v.n [F.fin 1, F.fin 0] mC8bad
        (springGrad g1v.edges [F.fin 1, F.fin 0] mC8bad
          (List.replicate (g1v.n * 2) (F.fin 0)))
     else
      repulseGradNaive g1v.n [F.fin 1, F.fin 0] mC8bad
        (springGrad g1v.edges [F.fin 1, F.fin 0] mC8bad
          (List.replicate (g1v.n * 2) (F.fin 0)))) = [F.fin 2, F.fin 0]
  rw [show (if 1 < mC8bad.n_blocks then
      repulseGradBlocked g1v.n [F.fin 1, F.fin 0] mC8bad
        (springGrad g1v.edges [F.fin 1, F.fin 0] mC8bad
          (List.replicate (g1v.n * 2) (F.fin 0)))
     else
      repulseGradNaive g1v.n [F.fin 1, F.fin 0] mC8bad
        (springGrad g1v.edges [F.fin 1, F.fin 0] mC8bad
          (List.replicate (g1v.n * 2) (F.fin 0)))) = [F.fin 0, F.fin 0] from rfl]
  rw [canvasGrad, show List.range g1v.n = [0] from rfl, List.foldl_cons,
    List.foldl_nil, hstep]

/-- **C8, amended.** The canvas term of `gradient` is the unguarded
closed-form partial of the power-law term; it yields non-finite
components at every vertex whenever `canvas_size = 0` with
`canvas_rigidity > 0`, and at every vertex at distance 0 from the
origin whenever `canvas_size > 0` with `canvas_rigidity < 2`.  (For a
negative `canvas_size` with an even-integer rigidity the components
can be finite, so the claim's bare `canvas_size <= 0` is too
strong.) -/
theorem C8_canvas_gradient (g : Graph) (loc : List F) (m : Model) (v : ℕ)
    (hv : v < g.n) :
    (m.canvas_size = 0 → 0 < m.canvas_rigidity →
      ((g.gradient loc m).getD (v * 2) F.nan).isFinite = false ∧
      ((g.gradient loc m).getD (v * 2 + 1) F.nan).isFinite = false) ∧
    (0 < m.canvas_size → m.canvas_rigidity < 2 →
      geti loc (v * 2) = F.fin 0 → geti loc (v * 2 + 1) = F.fin 0 →
      ((g.gradient loc m).getD (v * 2) F.nan).isFinite = false ∧
      ((g.gradient loc m).getD (v * 2 + 1) F.nan).isFinite = false) := by
  have main : ∀ (hit : ∀ gr,
      ((canvasGradStep loc m gr v).getD (v * 2) F.nan).isFinite = false ∧
      ((canvasGradStep loc m gr v).getD (v * 2 + 1) F.nan).isFinite = false),
      ((g.gradient loc m).getD (v * 2) F.nan).isFinite = false ∧
      ((g.gradient loc m).getD (v * 2 + 1) F.nan).isFinite = false := by
    intro hit
    show ((canvasGrad g.n loc m _).getD (v * 2) F.nan).isFinite = false ∧
      ((canvasGrad g.n loc m _).getD (v * 2 + 1) F.nan).isFinite = false
    rw [canvasGrad]
    constructor
    · refine foldl_getD_hit _ _ _ _ v (List.mem_range.mpr hv) (fun gr => (hit gr).1)
        (fun gr x hx => ?_)
      rcases eq_or_ne x v with rfl | hxv
      · exact Or.inr (hit gr).1
      · exact Or.inl (canvasGradStep_getD_ne loc m gr x _ (by omega) (by omega))
    · refine foldl_getD_hit _ _ _ _ v (List.mem_range.mpr hv) (fun gr => (hit gr).2)
        (fun gr x hx => ?_)
      rcases eq_or_ne x v with rfl | hxv
      · exact Or.inr (hit gr).2
      · exact Or.inl (canvasGradStep_getD_ne loc m gr x _ (by omega) (by omega))
  constructor
  · intro hS hr
    exact main (canvasGradStep_nonfinite_S0 loc m v hS hr)
  · intro hS hr hx hy
    exact main (canvasGradStep_nonfinite_origin loc m v hS hr hx hy)

/-- Models instantiating the two amended C8 conditions. -/
def mC8a : Model :=
  { spring := 0, repulse := 0, repulse_dist := 0, repulse_rigidity := 0,
    canvas := 1, canvas_size := 0, canvas_rigidity := 1, n_blocks := 1 }

def mC8b : Model :=
  { spring := 0, repulse := 0, repulse_dist := 0, repulse_rigidity := 0,
    canvas := 1, canvas_size := 1, canvas_rigidity := 1, n_blocks := 1 }

theorem C8_witness :
    (0 : ℕ) < g1v.n ∧ mC8a.canvas_size = 0 ∧ (0:ℝ) < mC8a.canvas_rigidity ∧
    (0:ℝ) < mC8b.canvas_size ∧ mC8b.canvas_rigidity < 2 ∧
    (((g1v.gradient [F.fin 1, F.fin 0] mC8a).getD (0 * 2) F.nan).isFinite = false ∧
      ((g1v.gradient [F.fin 1, F.fin 0] mC8a).getD (0 * 2 + 1) F.nan).isFinite = false) ∧
    (((g1v.gradient [F.fin 0, F.fin 0] mC8b).getD (0 * 2) F.nan).isFinite = false ∧
      ((g1v.gradient [F.fin 0, F.fin 0] mC8b).getD (0 * 2 + 1) F.nan).isFinite = false) :=
  ⟨by norm_num [g1v, Graph.new, Graph.add_vertex], rfl, by norm_num [mC8a],
    by norm_num [mC8b], by norm_num [mC8b],
    (C8_canvas_gradient g1v [F.fin 1, F.fin 0] mC8a 0
      (by norm_num [g1v, Graph.new, Graph.add_vertex])).1 rfl (by norm_num [mC8a]),
    (C8_canvas_gradient g1v [F.fin 0, F.fin 0] mC8b 0
      (by norm_num [g1v, Graph.new, Graph.add_vertex])).2 (by norm_num [mC8b])
      (by norm_num [mC8b]) rfl rfl⟩

/-! ### C9: softplus positivity -/

/-- **C9.** The softplus surrogate `relu(x) = ln(1 + e^x)` evaluates,
on every finite input, to a finite and strictly positive value, so a
scanned repulsion pair of finite coordinates with `repulse > 0`
contributes a strictly positive amount to `cost`. -/
theorem C9_softplus_positive (x a b : ℝ) (m : Model) (hrep : 0 < m.repulse) :
    (relu (F.fin x) = F.fin (Real.log (1 + Real.exp x)) ∧
      0 < Real.log (1 + Real.exp x)) ∧
    (repulse_cost (F.fin a) (F.fin b) m =
      F.fin (m.repulse *
        Real.log (1 + Real.exp (m.repulse_dist - Real.sqrt (a * a + b * b)))) ∧
      0 < m.repulse *
        Real.log (1 + Real.exp (m.repulse_dist - Real.sqrt (a * a + b * b)))) :=
  ⟨⟨relu_fin x, relu_fin_pos x⟩,
    ⟨repulse_cost_fin a b m, mul_pos hrep (relu_fin_pos _)⟩⟩

/-- The model used to instantiate hypotheses of several witnesses:
`repulse = 1`, everything else zero. -/
def mRep : Model :=
  { spring := 0, repulse := 1, repulse_dist := 0, repulse_rigidity := 0,
    canvas := 0, canvas_size := 0, canvas_rigidity := 0, n_blocks := 0 }

theorem C9_witness :
    0 < mRep.repulse ∧
    ((relu (F.fin 0) = F.fin (Real.log (1 + Real.exp 0)) ∧
      0 < Real.log (1 + Real.exp 0)) ∧
    (repulse_cost (F.fin 3) (F.fin 4) mRep =
      F.fin (mRep.repulse *
        Real.log (1 + Real.exp (mRep.repulse_dist - Real.sqrt (3 * 3 + 4 * 4)))) ∧
      0 < mRep.repulse *
        Real.log (1 + Real.exp (mRep.repulse_dist - Real.sqrt (3 * 3 + 4 * 4))))) :=
  ⟨by norm_num [mRep], C9_softplus_positive 0 3 4 mRep (by norm_num [mRep])⟩

end Lod
